import Mathlib

/-!
# Meique: a verification development

A shallow embedding of the build orchestration core of Meique (the GCC
backend of `gcc.cpp`, the per-target build routine of `compilabletarget.cpp`
and the persistent cache of `meiquecache.cpp`, written by `saveCache` and read
back by `loadCache` through the Lua interpreter), followed by the theorems
that settle the claims made about it.

Conventions of the embedding:

* `std::string` is `String`, `StringList` (a `std::list<std::string>`) is
  `List String`; `push_back` appends at the end, `push_front` conses.
* `Error() << msg` (a temporary whose destructor raises, like `LuaError` of
  `luacpputil.h`) is the `error` case of `Except String`.
* Objects reached through a pointer to an interface (`Compiler*`) and
  operating-system primitives are parameters of the definitions.
-/

namespace Meique

/-! ## Basic types -/

deriving instance DecidableEq for Except

/-- The `StringList` typedef: an ordered sequence of strings. -/
abbrev StringList := List String

/-- The member function `push_back` of a `StringList`. -/
def push_back (l : StringList) (s : String) : StringList := l ++ [s]

/-- The member function `push_front` of a `StringList`. -/
def push_front (l : StringList) (s : String) : StringList := s :: l

/-- The call `std::copy(src.begin(), src.end(), std::back_inserter(dst))`. -/
def copyBack (src dst : StringList) : StringList := src.foldl push_back dst

/-- The `Language` enumeration that `identifyLanguage` returns and the linker
options carry. Its declaration is outside the sources at hand: `gcc.cpp` names
`CLanguage` and `CPlusPlusLanguage` and treats every other value as
unsupported. -/
inductive Language where
  | CLanguage
  | CPlusPlusLanguage
  | UnsupportedLanguage
  deriving DecidableEq, Repr

/-- Modelled from the spec: the class `CompilerOptions` (declared in
`compileroptions.h`), "include paths, custom flags, defines, debug-info flag,
compile for library flag". -/
structure CompilerOptions where
  includePaths : StringList
  customFlags : StringList
  defines : StringList
  debugInfoEnabled : Bool
  compileForLibrary : Bool
  deriving DecidableEq, Repr

/-- The enumeration `LinkerOptions::LinkType`. -/
inductive LinkType where
  | Executable
  | SharedLibrary
  | StaticLibrary
  deriving DecidableEq, Repr

/-- Modelled from the spec: the class `LinkerOptions` (declared in
`linkeroptions.h`), "link type, language, custom flags, library paths,
libraries, static-library inputs". -/
structure LinkerOptions where
  linkType : LinkType
  language : Language
  customFlags : StringList
  libraryPath : StringList
  libraries : StringList
  staticLibraries : StringList
  deriving DecidableEq, Repr

/-- The data an `OSCommandJob` is constructed from (`oscommandjob.h`): the
command and its arguments. -/
structure OSCommandJob where
  command : String
  args : StringList
  deriving DecidableEq, Repr

/-! ## The GCC backend (`gcc.cpp`) -/

namespace Gcc

/-- The function `Gcc::compile`. `identifyLanguage` (declared outside the
sources at hand) is a parameter. -/
def compile (identifyLanguage : String → Language) (fileName output : String)
    (options : CompilerOptions) : Except String OSCommandJob :=
  let args : StringList := []
  let args := push_back args "-c"
  let args := push_back args fileName
  let args := push_back args "-o"
  let args := push_back args output
  let args := if options.compileForLibrary then push_back args "-fpic" else args
  let args := if options.debugInfoEnabled then push_back args "-ggdb" else args
  -- custom flags
  let args := copyBack options.customFlags args
  -- include paths
  let args := options.includePaths.foldl (fun a p => push_back a ("-I\"" ++ p ++ "\"")) args
  -- defines
  let args := options.defines.foldl (fun a d => push_back a ("-D" ++ d)) args
  match identifyLanguage fileName with
  | Language.CLanguage => Except.ok ⟨"gcc", args⟩
  | Language.CPlusPlusLanguage => Except.ok ⟨"g++", args⟩
  | _ => Except.error ("Unknown programming language used for " ++ fileName)

/-- The function `Gcc::link`. -/
def link (output : String) (objects : StringList) (options : LinkerOptions) :
    Except String OSCommandJob :=
  let args : StringList := objects
  if options.linkType = LinkType.StaticLibrary then
    let args := push_front args output
    let args := push_front args "-rcs"
    Except.ok ⟨"ar", args⟩
  else
    let linker : Except String String :=
      if options.language = Language.CPlusPlusLanguage then Except.ok "g++"
      else if options.language = Language.CLanguage then Except.ok "gcc"
      else Except.error "Unsupported programming language sent to the linker!"
    match linker with
    | Except.error e => Except.error e
    | Except.ok linker =>
      let args :=
        if options.linkType = LinkType.SharedLibrary then
          let args := push_front args "-fpic"
          let args := push_front args "-shared"
          push_front args ("-Wl,-soname=" ++ output)
        else args
      let args := push_back args "-o"
      let args := push_back args output
      -- custom flags
      let args := copyBack options.customFlags args
      -- library paths
      let args := options.libraryPath.foldl (fun a p => push_back a ("-L\"" ++ p ++ "\"")) args
      -- libraries
      let args := options.libraries.foldl (fun a l => push_back a ("-l" ++ l)) args
      -- static libraries
      let args := copyBack options.staticLibraries args
      Except.ok ⟨linker, args⟩

end Gcc

/-! ## Maps keyed by strings -/

/-- A map keyed by strings (`std::map<std::string, T>`; `StringMap` when `T` is
a string), as the list of its entries. The entries stand in the order of their
first assignment, where `std::map` iterates in key order: the order bears on
the order of the lines `saveCache` writes for a map, not on which lines it
writes. -/
abbrev SMap (α : Type) := List (String × α)

/-- The `StringMap` typedef. -/
abbrev StringMap := SMap String

namespace SMap

/-- Member `find`: the value stored under `k`, if any. -/
def find {α : Type} : SMap α → String → Option α
  | [], _ => none
  | (k1, v1) :: m, k => if k1 = k then some v1 else find m k

/-- The assignment `m[k] = v`: overwrites the entry of `k`, or adds one. -/
def set {α : Type} : SMap α → String → α → SMap α
  | [], k, v => [(k, v)]
  | (k1, v1) :: m, k, v => if k1 = k then (k, v) :: m else (k1, v1) :: set m k v

/-- The keys, in iteration order. -/
def keys {α : Type} (m : SMap α) : List String := m.map Prod.fst

end SMap

/-! ## The cache (`meiquecache.cpp`), in-memory state -/

/-- The build type of a cache. -/
inductive BuildType where
  | Debug
  | Release
  deriving DecidableEq, Repr

/-- The data members of `MeiqueCache`. `fileHashes` is modelled from the spec
("FileHash map: mapping absolute-source-path → content digest"): the snapshot of
`meiquecache.cpp` at hand has no such member, while `compilabletarget.cpp`
reads and writes it through `fileHash` and `setFileHash`. The compiler object
`m_compiler` is created on demand from `compilerId` and carries no state of
its own. -/
structure MeiqueCache where
  userOptions : StringMap
  buildType : BuildType
  compilerId : String
  sourceDir : String
  installPrefix : String
  scopes : StringList
  packages : SMap StringMap
  targetHashes : StringMap
  fileHashes : StringMap
  autoSave : Bool
  deriving DecidableEq, Repr

namespace MeiqueCache

/-- The function `MeiqueCache::targetHash`. -/
def targetHash (c : MeiqueCache) (target : String) : String :=
  match c.targetHashes.find target with
  | some h => h
  | none => ""

/-- Modelled from the spec: `fileHash(path)`, missing from the snapshot of
`meiquecache.cpp`; the recorded digest of `path`, and like its sibling
`targetHash` the empty string when none is recorded. -/
def fileHash (c : MeiqueCache) (path : String) : String :=
  match c.fileHashes.find path with
  | some h => h
  | none => ""

/-- Modelled from the spec: `setFileHash(path, hex)`, missing from the snapshot
of `meiquecache.cpp`; records `hex` as the digest of `path`. -/
def setFileHash (c : MeiqueCache) (path hex : String) : MeiqueCache :=
  { c with fileHashes := c.fileHashes.set path hex }

/-- Modelled from the spec: the accessor `sourceRoot()` that
`compilabletarget.cpp` calls on the cache, missing from the snapshot of
`meiquecache.cpp`: the source directory of the build configuration. -/
def sourceRoot (c : MeiqueCache) : String := c.sourceDir

end MeiqueCache

/-! ## Compilable targets (`compilabletarget.cpp`) -/

/-- The two observations `doRun` makes of the file system: `OS::fileExists`
and `FileHash(path).toString()`. The file system is the same throughout a run
of `doRun`: the calls to the compiler yield jobs and run nothing. -/
structure FileSystem where
  fileExists : String → Bool
  fileHash : String → String

/-- The `Compiler` interface as `doRun` uses it. A call yields a job pointer
(`none` is the null pointer) or raises. -/
structure Compiler where
  compile : String → String → CompilerOptions → Except String (Option OSCommandJob)
  link : String → StringList → LinkerOptions → Except String (Option OSCommandJob)

/-- The GCC backend as a `Compiler`: `new OSCommandJob` is never null. -/
def Gcc.compiler (identifyLanguage : String → Language) : Compiler where
  compile := fun fileName output options =>
    match Gcc.compile identifyLanguage fileName output options with
    | Except.ok job => Except.ok (some job)
    | Except.error e => Except.error e
  link := fun output objects options =>
    match Gcc.link output objects options with
    | Except.ok job => Except.ok (some job)
    | Except.error e => Except.error e

/-- What `doRun` reads of a `CompilableTarget`: its name, its directory
relative to the source root, the list in its Lua field `_files`, and the
options `fillCompilerAndLinkerOptions` derived for it. -/
structure CompilableTarget where
  name : String
  directory : String
  files : StringList
  compilerOptions : CompilerOptions
  linkerOptions : LinkerOptions

/-- A call `doRun` makes to the compiler. -/
inductive Request where
  | compile (source output : String)
  | link (name : String) (objects : StringList)
  deriving DecidableEq, Repr

/-- How the loop of `doRun` ends: after the last file, with the locals
`needLink` and `objects`, or with a raised error. -/
inductive LoopExit where
  | finished (needLink : Bool) (objects : StringList)
  | raised (msg : String)
  deriving DecidableEq, Repr

/-- The state of a run of `doRun`: the cache it mutates, the calls it has made
to the compiler so far, and the error it raised, if any. -/
structure DoRunResult where
  cache : MeiqueCache
  requests : List Request
  error : Option String
  deriving DecidableEq, Repr

/-- The `for` loop of `CompilableTarget::doRun` over the remaining files. -/
def doRunLoop (compiler : Compiler) (fs : FileSystem) (options : CompilerOptions)
    (sourceDir : String) :
    StringList → MeiqueCache → List Request → Bool → StringList →
      MeiqueCache × List Request × LoopExit
  | [], cache, requests, needLink, objects =>
    (cache, requests, LoopExit.finished needLink objects)
  | f :: rest, cache, requests, needLink, objects =>
    let source := sourceDir ++ f
    let output := f ++ ".o"
    let hash := fs.fileHash source
    if !fs.fileExists output || hash != cache.fileHash source then
      let requests := requests ++ [Request.compile source output]
      match compiler.compile source output options with
      | Except.error e => (cache, requests, LoopExit.raised e)
      | Except.ok none => (cache, requests, LoopExit.raised "Compilation fail!")
      | Except.ok (some _) =>
        doRunLoop compiler fs options sourceDir rest
          (cache.setFileHash source hash) requests true (push_back objects output)
    else
      doRunLoop compiler fs options sourceDir rest
        (cache.setFileHash source hash) requests needLink (push_back objects output)

/-- The function `CompilableTarget::doRun`. -/
def doRun (compiler : Compiler) (fs : FileSystem) (t : CompilableTarget)
    (cache : MeiqueCache) : DoRunResult :=
  if t.files.isEmpty then
    { cache := cache, requests := [],
      error := some ("Compilable target '" ++ t.name ++ "' has no files!") }
  else
    let sourceDir := cache.sourceRoot ++ t.directory
    match doRunLoop compiler fs t.compilerOptions sourceDir t.files cache [] false [] with
    | (cache, requests, LoopExit.raised e) =>
      { cache := cache, requests := requests, error := some e }
    | (cache, requests, LoopExit.finished needLink objects) =>
      if needLink then
        let requests := requests ++ [Request.link t.name objects]
        match compiler.link t.name objects t.linkerOptions with
        | Except.error e => { cache := cache, requests := requests, error := some e }
        | Except.ok _ => { cache := cache, requests := requests, error := none }
      else
        { cache := cache, requests := requests, error := none }

/-- The staleness test of `doRun` for the source `s` of a target, against the
cache `cache`: the object `s.o` is missing, or the content hash of the resolved
source differs from the recorded one. -/
def isStale (fs : FileSystem) (sourceDir : String) (cache : MeiqueCache) (s : String) : Bool :=
  !fs.fileExists (s ++ ".o") || fs.fileHash (sourceDir ++ s) != cache.fileHash (sourceDir ++ s)

/-- The cache as it stands once the sources `pre` have been processed: the
content hash of each is recorded. -/
def cacheAfter (fs : FileSystem) (sourceDir : String) (cache : MeiqueCache)
    (pre : StringList) : MeiqueCache :=
  pre.foldl (fun c p => c.setFileHash (sourceDir ++ p) (fs.fileHash (sourceDir ++ p))) cache

/-- The compile requests of a whole pass over `files` from `cache`: one per
source that is stale against the cache as it stands when that source is
processed, that is, once the sources before it are recorded. -/
def staleCompiles (fs : FileSystem) (sourceDir : String) (cache : MeiqueCache)
    (files : StringList) : List Request :=
  ((files.inits.zip files).filter
      (fun ps => isStale fs sourceDir (cacheAfter fs sourceDir cache ps.1) ps.2)).map
    (fun ps => Request.compile (sourceDir ++ ps.2) (ps.2 ++ ".o"))

/-! ## The cache file: `MeiqueCache::saveCache` -/

/-- Modelled from the spec: the helper `escape` (declared in `stdstringsux.h`),
"escape backslash and double-quote"; on the characters of the string. -/
def escapeChars : List Char → List Char
  | [] => []
  | c :: cs =>
    if c = '\\' ∨ c = '"' then '\\' :: c :: escapeChars cs else c :: escapeChars cs

/-- Modelled from the spec: the helper `escape` (declared in `stdstringsux.h`),
"escape backslash and double-quote". -/
def escape (s : String) : String := String.mk (escapeChars s.data)

/-- The loop of `saveCache` over `m_userOptions`. -/
def saveUserOptions (file : String) (userOptions : StringMap) : String :=
  userOptions.foldl
    (fun file pair =>
      if pair.1.isEmpty then file
      else file ++ "UserOption \x7b\n"
        ++ "    name = \"" ++ escape pair.1 ++ "\",\n"
        ++ "    value = \"" ++ escape pair.2 ++ "\"\n"
        ++ "\x7d\n\n")
    file

/-- The `Config` record of `saveCache`. -/
def saveConfig (file : String) (c : MeiqueCache) : String :=
  let file := file ++ "Config \x7b\n"
  let file := file ++ "    buildType = \""
    ++ (if c.buildType = BuildType.Debug then "debug" else "release") ++ "\",\n"
  let file := file ++ "    compiler = \"" ++ c.compilerId ++ "\",\n"
  let file := file ++ "    sourceDir = \"" ++ c.sourceDir ++ "\",\n"
  let file :=
    if !c.installPrefix.isEmpty then
      file ++ "    installPrefix = \"" ++ c.installPrefix ++ "\",\n"
    else file
  file ++ "\x7d\n\n"

/-- The `Scopes` record of `saveCache`. -/
def saveScopes (file : String) (scopes : StringList) : String :=
  let file := file ++ "Scopes \x7b\n"
  let file := scopes.foldl (fun file scope => file ++ "    \"" ++ scope ++ "\",\n") file
  file ++ "\x7d\n\n"

/-- The loop of `saveCache` over `m_packages`. -/
def savePackages (file : String) (packages : SMap StringMap) : String :=
  packages.foldl
    (fun file pair =>
      let file := file ++ "Package \x7b\n"
      let file := file ++ "    name = \"" ++ escape pair.1 ++ "\",\n"
      -- Write package data
      let file := pair.2.foldl
        (fun file p => file ++ "    " ++ p.1 ++ " = \"" ++ escape p.2 ++ "\",\n") file
      file ++ "\x7d\n\n")
    file

/-- The loop of `saveCache` over `m_targetHashes`. -/
def saveTargetHashes (file : String) (targetHashes : StringMap) : String :=
  targetHashes.foldl
    (fun file pair =>
      let file := file ++ "TargetHash \x7b\n"
        ++ "    target = \"" ++ escape pair.1 ++ "\",\n"
      let file := file ++ "    hash = \"" ++ escape pair.2 ++ "\"\n"
      file ++ "\x7d\n\n")
    file

/-- The function `MeiqueCache::saveCache`, as the content it writes to
`meiquecache.lua` once the file is open. -/
def saveCache (c : MeiqueCache) : String :=
  let file := ""
  let file := saveUserOptions file c.userOptions
  let file := saveConfig file c
  let file := saveScopes file c.scopes
  -- Info about packages
  let file := savePackages file c.packages
  -- target hashes
  saveTargetHashes file c.targetHashes

/-! ## The cache file read back: `MeiqueCache::loadCache`

`loadCache` hands `meiquecache.lua` to the Lua interpreter, with the five
readers registered as global functions. The interpreter is modelled for the
fragment of Lua the cache file is written in: a sequence of calls
`Name { fields }`, a field being `Name = "string"` or `"string"`, fields
separated by commas, the last one optionally followed by a comma. The lexer and
the parser are state machines folded over the input. A result `none` means that
the input is outside this fragment: the model then says nothing about what the
interpreter does. -/

/-- The tokens of the fragment. -/
inductive Token where
  | name (s : String)
  | str (s : String)
  | lbrace
  | rbrace
  | assign
  | comma
  deriving DecidableEq, Repr

/-- Where the lexer stands: between tokens, inside a name, inside a string
literal, or right after a backslash inside a string literal. -/
inductive LexMode where
  | default
  | inName (acc : List Char)
  | inString (acc : List Char)
  | inEscape (acc : List Char)
  deriving DecidableEq, Repr

/-- The state of the lexer: its mode and the tokens read so far. -/
structure LexState where
  mode : LexMode
  tokens : List Token
  deriving DecidableEq, Repr

/-- The first character of a Lua name: a letter or an underscore. -/
def isNameStart (c : Char) : Bool := c.isAlpha || c = '_'

/-- A further character of a Lua name: a letter, a digit or an underscore. -/
def isNameChar (c : Char) : Bool := c.isAlphanum || c = '_'

/-- White space between tokens. -/
def isBlank (c : Char) : Bool := c = ' ' || c = '\n' || c = '\r' || c = '\t'

/-- The character an escape sequence `\c` of a Lua string literal stands for;
decimal escapes and the other sequences are outside the fragment. -/
def unescapeChar (c : Char) : Option Char :=
  if c = '\\' then some '\\'
  else if c = '"' then some '"'
  else if c = '\'' then some '\''
  else if c = 'n' then some '\n'
  else if c = 't' then some '\t'
  else if c = 'r' then some '\r'
  else none

/-- A step of the lexer between tokens. -/
def lexDefault (tokens : List Token) (c : Char) : Option LexState :=
  if isBlank c then some ⟨LexMode.default, tokens⟩
  else if c = '\x7b' then some ⟨LexMode.default, tokens ++ [Token.lbrace]⟩
  else if c = '\x7d' then some ⟨LexMode.default, tokens ++ [Token.rbrace]⟩
  else if c = '=' then some ⟨LexMode.default, tokens ++ [Token.assign]⟩
  else if c = ',' then some ⟨LexMode.default, tokens ++ [Token.comma]⟩
  else if c = '"' then some ⟨LexMode.inString [], tokens⟩
  else if isNameStart c then some ⟨LexMode.inName [c], tokens⟩
  else none

/-- A step of the lexer. A line break inside a string literal is an error of
the interpreter ("unfinished string"). -/
def lexStep (st : LexState) (c : Char) : Option LexState :=
  match st.mode with
  | LexMode.default => lexDefault st.tokens c
  | LexMode.inName acc =>
    if isNameChar c then some ⟨LexMode.inName (acc ++ [c]), st.tokens⟩
    else lexDefault (st.tokens ++ [Token.name (String.mk acc)]) c
  | LexMode.inString acc =>
    if c = '"' then some ⟨LexMode.default, st.tokens ++ [Token.str (String.mk acc)]⟩
    else if c = '\\' then some ⟨LexMode.inEscape acc, st.tokens⟩
    else if c = '\n' ∨ c = '\r' then none
    else some ⟨LexMode.inString (acc ++ [c]), st.tokens⟩
  | LexMode.inEscape acc =>
    match unescapeChar c with
    | some d => some ⟨LexMode.inString (acc ++ [d]), st.tokens⟩
    | none => none

/-- The lexer run over a sequence of characters. -/
def lexRun : LexState → List Char → Option LexState
  | st, [] => some st
  | st, c :: cs =>
    match lexStep st c with
    | some st1 => lexRun st1 cs
    | none => none

/-- The end of the input: a name may end there, a string literal may not. -/
def lexFinish (st : LexState) : Option (List Token) :=
  match st.mode with
  | LexMode.default => some st.tokens
  | LexMode.inName acc => some (st.tokens ++ [Token.name (String.mk acc)])
  | LexMode.inString _ => none
  | LexMode.inEscape _ => none

/-- The tokens of a file. -/
def lex (content : String) : Option (List Token) :=
  match lexRun ⟨LexMode.default, []⟩ content.data with
  | some st => lexFinish st
  | none => none

/-- The reserved words of Lua: none of them is a name. -/
def luaKeywords : List String :=
  ["and", "break", "do", "else", "elseif", "end", "false", "for", "function", "goto", "if",
   "in", "local", "nil", "not", "or", "repeat", "return", "then", "true", "until", "while"]

/-- A field of a table constructor: `key = "value"`, or `"value"` alone. -/
structure Field where
  key : Option String
  value : String
  deriving DecidableEq, Repr

/-- A statement of the fragment: the call of a global function on a table
constructor. -/
structure Call where
  callee : String
  fields : List Field
  deriving DecidableEq, Repr

/-- Where the parser stands. -/
inductive ParseMode where
  | top
  | callee (f : String)
  | fieldStart (f : String) (fields : List Field)
  | afterKey (f : String) (fields : List Field) (k : String)
  | afterAssign (f : String) (fields : List Field) (k : String)
  | afterValue (f : String) (fields : List Field)
  deriving DecidableEq, Repr

/-- The state of the parser: its mode and the calls read so far. -/
structure ParseState where
  mode : ParseMode
  calls : List Call
  deriving DecidableEq, Repr

/-- A step of the parser. -/
def parseStep (st : ParseState) (tok : Token) : Option ParseState :=
  match st.mode, tok with
  | ParseMode.top, Token.name f =>
    if f ∈ luaKeywords then none else some ⟨ParseMode.callee f, st.calls⟩
  | ParseMode.callee f, Token.lbrace => some ⟨ParseMode.fieldStart f [], st.calls⟩
  | ParseMode.fieldStart f fields, Token.rbrace =>
    some ⟨ParseMode.top, st.calls ++ [⟨f, fields⟩]⟩
  | ParseMode.fieldStart f fields, Token.str v =>
    some ⟨ParseMode.afterValue f (fields ++ [⟨none, v⟩]), st.calls⟩
  | ParseMode.fieldStart f fields, Token.name k =>
    if k ∈ luaKeywords then none else some ⟨ParseMode.afterKey f fields k, st.calls⟩
  | ParseMode.afterKey f fields k, Token.assign =>
    some ⟨ParseMode.afterAssign f fields k, st.calls⟩
  | ParseMode.afterAssign f fields k, Token.str v =>
    some ⟨ParseMode.afterValue f (fields ++ [⟨some k, v⟩]), st.calls⟩
  | ParseMode.afterValue f fields, Token.comma =>
    some ⟨ParseMode.fieldStart f fields, st.calls⟩
  | ParseMode.afterValue f fields, Token.rbrace =>
    some ⟨ParseMode.top, st.calls ++ [⟨f, fields⟩]⟩
  | _, _ => none

/-- The parser run over a sequence of tokens. -/
def parseRun : ParseState → List Token → Option ParseState
  | st, [] => some st
  | st, tok :: toks =>
    match parseStep st tok with
    | some st1 => parseRun st1 toks
    | none => none

/-- The end of the input: only between two statements. -/
def parseFinish (st : ParseState) : Option (List Call) :=
  match st.mode with
  | ParseMode.top => some st.calls
  | _ => none

/-- The calls a file makes, in order. -/
def luaChunk (content : String) : Option (List Call) :=
  match lex content with
  | none => none
  | some tokens =>
    match parseRun ⟨ParseMode.top, []⟩ tokens with
    | some st => parseFinish st
    | none => none

/-- A Lua table, as a table constructor of the fragment builds it: the values
without key in order (the array part), and the entries under string keys in
the order a traversal with `lua_next` yields them (the hash part). -/
structure LuaTable where
  array : List String
  hash : StringMap
  deriving DecidableEq, Repr

/-- The table a constructor builds: a later field overwrites an earlier one
with the same key. The order of the hash part, here the order in which the
keys are first assigned, stands in for the order of traversal, which Lua
leaves open. -/
def LuaTable.ofFields (fields : List Field) : LuaTable :=
  fields.foldl
    (fun t f =>
      match f.key with
      | none => { t with array := t.array ++ [f.value] }
      | some k => { t with hash := t.hash.set k f.value })
    ⟨[], []⟩

/-- The conversion `lua_tocpp<std::string>` of `luacpputil.h` on a Lua string:
`lua_tostring` yields a C string, which ends at the first NUL character. -/
def lua_tocpp (s : String) : String :=
  String.mk (s.data.takeWhile (fun c => c ≠ '\x00'))

/-- The function `readLuaTable` of `luacpputil.h` into an empty `StringMap`:
for every entry that `lua_next` yields, key and value are converted by
`lua_tocpp` and assigned, `map[key] = value`. In a table with an array part
the first key is the number 1, which `lua_tostring` turns into the string `1`
where it stands; the next call of `lua_next` looks that string up among the
keys of the table and raises `invalid key to 'next'` when there is no such
key. When there is one, the traversal goes on from wherever that key lies in
the table, which is outside the model. -/
def readLuaTable (t : LuaTable) : Option (Except String StringMap) :=
  if t.array = [] then
    some (Except.ok
      (t.hash.foldl (fun m p => SMap.set m (lua_tocpp p.1) (lua_tocpp p.2)) []))
  else if t.hash.find "1" = none then some (Except.error "invalid key to 'next'")
  else none

/-- The function `readLuaList` of `luacpputil.h`: the values of the table, in
traversal order, appended to `list`. A table with a hash part is outside the
model (the traversal order of the hash part is not specified). -/
def readLuaList (t : LuaTable) (list : StringList) : Option StringList :=
  if t.hash = [] then some (t.array.foldl (fun l v => push_back l (lua_tocpp v)) list)
  else none

/-- The helper `luaGetField<std::string>`: the field `key` of the table, the
empty string when there is none. -/
def luaGetField (t : LuaTable) (key : String) : String :=
  match t.hash.find key with
  | some v => lua_tocpp v
  | none => ""

namespace MeiqueCache

/-- The constructor `MeiqueCache::MeiqueCache`: empty members and auto-save
on. It leaves `m_buildType` uninitialised, so the value is a parameter. -/
def fresh (buildType : BuildType) : MeiqueCache :=
  { userOptions := [], buildType := buildType, compilerId := "", sourceDir := "",
    installPrefix := "", scopes := [], packages := [], targetHashes := [], fileHashes := [],
    autoSave := true }

/-- The function `MeiqueCache::setPackage`. -/
def setPackage (self : MeiqueCache) (pkgName : String) (pkgData : StringMap) : MeiqueCache :=
  { self with packages := self.packages.set pkgName pkgData }

/-- The function `MeiqueCache::readOption`. -/
def readOption (t : LuaTable) (self : MeiqueCache) : Option (Except String MeiqueCache) :=
  let name := luaGetField t "name"
  let value := luaGetField t "value"
  some (Except.ok { self with userOptions := self.userOptions.set name value })

/-- The function `MeiqueCache::readMeiqueConfig`; an error of the traversal
in `readLuaTable` ends the call; `opts.at(key)` raises `std::out_of_range` when
`key` is missing, which the handler turns into a Lua error.
`OS::normalizeDirPath` is a parameter. -/
def readMeiqueConfig (normalizeDirPath : String → String) (t : LuaTable)
    (self : MeiqueCache) : Option (Except String MeiqueCache) :=
  match readLuaTable t with
  | none => none
  | some (Except.error msg) => some (Except.error msg)
  | some (Except.ok opts) =>
    match opts.find "sourceDir", opts.find "buildType", opts.find "compiler" with
    | some sourceDir, some buildType, some compiler =>
      some (Except.ok
        { self with
          sourceDir := normalizeDirPath sourceDir,
          buildType := if buildType = "debug" then BuildType.Debug else BuildType.Release,
          compilerId := compiler,
          installPrefix :=
            match opts.find "installPrefix" with
            | some installPrefix => installPrefix
            | none => "" })
    | _, _, _ =>
      some (Except.error
        "meiquecache.lua file corrupted or created by a old version of meique.")

/-- The function `MeiqueCache::readTargetHash`. -/
def readTargetHash (t : LuaTable) (self : MeiqueCache) : Option (Except String MeiqueCache) :=
  let target := luaGetField t "target"
  let hash := luaGetField t "hash"
  some (Except.ok { self with targetHashes := self.targetHashes.set target hash })

/-- The function `MeiqueCache::readPackage`. -/
def readPackage (t : LuaTable) (self : MeiqueCache) : Option (Except String MeiqueCache) :=
  match readLuaTable t with
  | none => none
  | some (Except.error msg) => some (Except.error msg)
  | some (Except.ok pkgData) =>
    let name :=
      match pkgData.find "name" with
      | some name => name
      | none => ""
    if name.isEmpty then some (Except.error "Package entry without name.")
    else some (Except.ok (self.setPackage name pkgData))

/-- The function `MeiqueCache::readScopes`. -/
def readScopes (t : LuaTable) (self : MeiqueCache) : Option (Except String MeiqueCache) :=
  match readLuaList t self.scopes with
  | none => none
  | some scopes => some (Except.ok { self with scopes := scopes })

/-- A statement of the cache file, run: the reader registered under the name
of the callee is called on the table. A name with no reader is a nil global,
and calling it an error of the interpreter (its wording is not modelled). -/
def runCall (normalizeDirPath : String → String) (call : Call) (self : MeiqueCache) :
    Option (Except String MeiqueCache) :=
  let t := LuaTable.ofFields call.fields
  if call.callee = "UserOption" then readOption t self
  else if call.callee = "Config" then readMeiqueConfig normalizeDirPath t self
  else if call.callee = "Package" then readPackage t self
  else if call.callee = "Scopes" then readScopes t self
  else if call.callee = "TargetHash" then readTargetHash t self
  else some (Except.error "attempt to call a nil value")

/-- The statements of the cache file, run in order up to the first error. -/
def runCalls (normalizeDirPath : String → String) :
    List Call → MeiqueCache → Option (Except String MeiqueCache)
  | [], self => some (Except.ok self)
  | call :: rest, self =>
    match runCall normalizeDirPath call self with
    | some (Except.ok self1) => runCalls normalizeDirPath rest self1
    | other => other

/-- The function `MeiqueCache::loadCache`, on the content of
`meiquecache.lua`: `none` when the content is outside the modelled fragment,
an error when a reader raises, else the cache as the readers leave it. -/
def loadCache (normalizeDirPath : String → String) (content : String) (self : MeiqueCache) :
    Option (Except String MeiqueCache) :=
  match luaChunk content with
  | none => none
  | some calls =>
    match runCalls normalizeDirPath calls self with
    | some (Except.error msg) =>
      some (Except.error
        ("meiquecache.lua corrupted of created by an older version of meique ("
          ++ msg ++ ")"))
    | other => other

end MeiqueCache

/-! ## What the cache file spells

The statements `saveCache` writes, as data, and the tokens that spell them:
used to state and prove what `loadCache` reads back. -/

/-- Tokens already read stay in front of the ones a run adds. -/
def LexState.shift (toks : List Token) (st : LexState) : LexState :=
  ⟨st.mode, toks ++ st.tokens⟩

/-- The file `file` is lexed completely, leaving the lexer in mode `mode` with
the tokens `toks`. -/
def LexTo (file : String) (mode : LexMode) (toks : List Token) : Prop :=
  lexRun ⟨LexMode.default, []⟩ file.data = some ⟨mode, toks⟩

/-- The tokens of a field. -/
def Field.tokens (f : Field) : List Token :=
  match f.key with
  | none => [Token.str f.value]
  | some k => [Token.name k, Token.assign, Token.str f.value]

/-- The tokens of fields with a comma between them. -/
def fieldsSep : List Field → List Token
  | [] => []
  | [f] => f.tokens
  | f :: g :: fs => f.tokens ++ Token.comma :: fieldsSep (g :: fs)

/-- The tokens of a call; `trailing` tells whether every field is followed by
a comma, or every field but the last. -/
def Call.tokens (trailing : Bool) (c : Call) : List Token :=
  Token.name c.callee :: Token.lbrace ::
    ((if trailing then c.fields.flatMap (fun f => f.tokens ++ [Token.comma])
      else fieldsSep c.fields) ++ [Token.rbrace])

/-- The statement written for a user option. -/
def optionCall (p : String × String) : Call :=
  ⟨"UserOption", [⟨some "name", p.1⟩, ⟨some "value", p.2⟩]⟩

/-- The `Config` statement written for a cache. -/
def configCall (c : MeiqueCache) : Call :=
  ⟨"Config",
    [⟨some "buildType", if c.buildType = BuildType.Debug then "debug" else "release"⟩,
     ⟨some "compiler", c.compilerId⟩, ⟨some "sourceDir", c.sourceDir⟩]
    ++ (if c.installPrefix.isEmpty then [] else [⟨some "installPrefix", c.installPrefix⟩])⟩

/-- The `Scopes` statement. -/
def scopesCall (scopes : StringList) : Call :=
  ⟨"Scopes", scopes.map (fun s => ⟨none, s⟩)⟩

/-- The statement written for a package. -/
def packageCall (p : String × StringMap) : Call :=
  ⟨"Package", ⟨some "name", p.1⟩ :: p.2.map (fun a => ⟨some a.1, a.2⟩)⟩

/-- The statement written for a target hash. -/
def targetHashCall (p : String × String) : Call :=
  ⟨"TargetHash", [⟨some "target", p.1⟩, ⟨some "hash", p.2⟩]⟩

/-- The statements of the file `saveCache` writes. -/
def savedCalls (c : MeiqueCache) : List Call :=
  (c.userOptions.filter (fun p => !p.1.isEmpty)).map optionCall
    ++ [configCall c, scopesCall c.scopes]
    ++ c.packages.map packageCall
    ++ c.targetHashes.map targetHashCall

/-- The tokens of the file `saveCache` writes. -/
def savedTokens (c : MeiqueCache) : List Token :=
  ((c.userOptions.filter (fun p => !p.1.isEmpty)).map optionCall).flatMap (Call.tokens false)
    ++ (Call.tokens true (configCall c) ++ Call.tokens true (scopesCall c.scopes))
    ++ (c.packages.map packageCall).flatMap (Call.tokens true)
    ++ (c.targetHashes.map targetHashCall).flatMap (Call.tokens false)

/-- A string that a Lua string literal holds as it stands once `escape` has
been applied, and that `lua_tocpp` returns whole: no line break, no NUL. -/
def isPlain (s : String) : Bool :=
  s.data.all (fun c => c != '\n' && c != '\r' && c != '\x00')

/-- A string that a Lua string literal holds as it stands without `escape`:
plain, and with no double quote and no backslash. -/
def isVerbatim (s : String) : Bool :=
  s.data.all (fun c => c != '\n' && c != '\r' && c != '\x00' && c != '"' && c != '\\')

/-- A Lua name: a letter or underscore, then letters, digits and underscores,
and not a reserved word. -/
def isLuaName (s : String) : Bool :=
  (match s.data with
   | [] => false
   | c :: cs => isNameStart c && cs.all isNameChar)
  && decide (s ∉ luaKeywords)

/-- The cache states whose file `loadCache` reads back: the maps hold each key
once; the strings written through `escape` hold no line break and no NUL; the
strings written as they stand (compiler, source directory, install prefix,
scopes) hold no double quote and no backslash either; a package has a name, its
attribute keys are Lua names, and an attribute called `name` is not empty. -/
def Writable (c : MeiqueCache) : Prop :=
  (c.userOptions.keys.Nodup ∧ ∀ p ∈ c.userOptions, isPlain p.1 = true ∧ isPlain p.2 = true)
  ∧ (isVerbatim c.compilerId = true ∧ isVerbatim c.sourceDir = true
      ∧ isVerbatim c.installPrefix = true)
  ∧ (∀ s ∈ c.scopes, isVerbatim s = true)
  ∧ (∀ p ∈ c.packages, p.1 ≠ "" ∧ isPlain p.1 = true
      ∧ ∀ a ∈ p.2, isLuaName a.1 = true ∧ isPlain a.2 = true ∧ (a.1 = "name" → a.2 ≠ ""))
  ∧ (c.targetHashes.keys.Nodup ∧ ∀ p ∈ c.targetHashes, isPlain p.1 = true ∧ isPlain p.2 = true)

/-! ## Sample inputs

Concrete inputs at which the theorems below are instantiated. -/

/-- A sample `identifyLanguage`: `.cpp` files are C++, `.c` files are C,
anything else is unsupported. -/
def sampleIdentifyLanguage (fileName : String) : Language :=
  if ".cpp".data.isSuffixOf fileName.data then Language.CPlusPlusLanguage
  else if ".c".data.isSuffixOf fileName.data then Language.CLanguage
  else Language.UnsupportedLanguage

/-- A cache as configure leaves it for a project under `/src/`: no file hash
recorded yet. -/
def sampleCache : MeiqueCache :=
  { userOptions := [], buildType := BuildType.Release, compilerId := "gcc",
    sourceDir := "/src/", installPrefix := "", scopes := [], packages := [],
    targetHashes := [], fileHashes := [], autoSave := true }

/-- Compiler options with nothing set. -/
def noOptions : CompilerOptions :=
  { includePaths := [], customFlags := [], defines := [], debugInfoEnabled := false,
    compileForLibrary := false }

/-- Linker options of a C++ executable with nothing else set. -/
def executableOptions : LinkerOptions :=
  { linkType := LinkType.Executable, language := Language.CPlusPlusLanguage,
    customFlags := [], libraryPath := [], libraries := [], staticLibraries := [] }

/-- The executable `hello` built from `hello.cpp`. -/
def helloTarget : CompilableTarget :=
  { name := "hello", directory := "", files := ["hello.cpp"],
    compilerOptions := noOptions, linkerOptions := executableOptions }

/-- A target that lists a C++ source and then a file that is no source. -/
def mixedTarget : CompilableTarget :=
  { name := "app", directory := "", files := ["a.cpp", "notes.txt"],
    compilerOptions := noOptions, linkerOptions := executableOptions }

/-- A file system holding the sources and no object file. -/
def sourcesOnly : FileSystem :=
  { fileExists := fun _ => false,
    fileHash := fun path =>
      if path = "/src/hello.cpp" then "a1b2" else if path = "/src/a.cpp" then "c3d4"
      else if path = "/src/notes.txt" then "e5f6" else "" }

/-- The same sources, with the object file of `hello.cpp` present. -/
def sourcesAndObjects : FileSystem :=
  { fileExists := fun path => path = "hello.cpp.o",
    fileHash := sourcesOnly.fileHash }

/-- A sample `OS::normalizeDirPath`: the path with a trailing separator. -/
def sampleNormalizeDirPath (path : String) : String :=
  if path.data.getLast? = some '/' then path else path ++ "/"

/-- A cache with a user option under the empty name and one under `docs`. -/
def optionCache : MeiqueCache :=
  { sampleCache with userOptions := [("", "on"), ("docs", "yes")] }

/-- A cache with one package, as configure leaves it. -/
def packageCache : MeiqueCache :=
  { sampleCache with packages := [("zlib", [("cflags", "-I/z")])] }

/-- A cache with every member set. -/
def fullCache : MeiqueCache :=
  { userOptions := [("docs", "say \"yes\""), ("path", "C:\\tools")],
    buildType := BuildType.Debug, compilerId := "gcc", sourceDir := "/src/",
    installPrefix := "/usr/", scopes := ["LINUX", "UNIX"],
    packages := [("zlib", [("cflags", "-I/z"), ("linkLibraries", "z")])],
    targetHashes := [("hello", "ff00")], fileHashes := [], autoSave := true }

/-! ## The install prefix (`MeiqueCache::installPrefix`) -/

namespace OS

/-- Modelled from the spec: `OS::getEnv` (declared in `os.h`), "empty if
unset"; `env` gives the value of a variable when it is set. -/
def getEnv (env : String → Option String) (name : String) : String :=
  match env name with
  | some value => value
  | none => ""

end OS

namespace MeiqueCache

/-- The function `MeiqueCache::installPrefix` (the name `installPrefix` is
taken by the member `m_installPrefix`). `OS::normalizeDirPath` and
`OS::defaultInstallPrefix` are parameters. -/
def resolveInstallPrefix (env : String → Option String) (normalizeDirPath : String → String)
    (defaultInstallPrefix : String) (self : MeiqueCache) : String :=
  -- Check if DESTDIR env variable is set
  let destDir := OS.getEnv env "DESTDIR"
  if !destDir.isEmpty then normalizeDirPath destDir
  -- Last resort, the default install prefix.
  else if self.installPrefix.isEmpty then defaultInstallPrefix
  else self.installPrefix

/-! ## Auto-save -/

/-- Modelled from the spec: the accessor `setAutoSave` (declared in
`meiquecache.h`), which sets `m_autoSave`. -/
def setAutoSave (self : MeiqueCache) (value : Bool) : MeiqueCache :=
  { self with autoSave := value }

/-- Modelled from the spec: the accessor `isAutoSaveEnabled` (declared in
`meiquecache.h`), which returns `m_autoSave`. -/
def isAutoSaveEnabled (self : MeiqueCache) : Bool := self.autoSave

/-- The destructor `MeiqueCache::~MeiqueCache`, on the content of
`meiquecache.lua` (`none` when there is no such file): what the file holds
afterwards. -/
def destructor (self : MeiqueCache) (file : Option String) : Option String :=
  if self.autoSave then some (saveCache self) else file

end MeiqueCache

/-- The function `handleCtrlC`, on the global `currentCache` (`none` is the
null pointer) and the content of `meiquecache.lua`: what the file holds when
the process exits. -/
def handleCtrlC (currentCache : Option MeiqueCache) (file : Option String) : Option String :=
  match currentCache with
  | some cache => if cache.isAutoSaveEnabled then some (saveCache cache) else file
  | none => file

/-! ## The build state machine (`meique.cpp`) -/

/-- The label `HasVersionArg` of the anonymous enumeration of `meique.cpp`. -/
def HasVersionArg : Int := 1
/-- The label `HasHelpArg`. -/
def HasHelpArg : Int := 2
/-- The label `NormalArgs`. -/
def NormalArgs : Int := 3
/-- The label `DumpProject`. -/
def DumpProject : Int := 4
/-- The label `Found`. -/
def Found : Int := 5
/-- The label `NotFound`. -/
def NotFound : Int := 6
/-- The label `Yes`. -/
def Yes : Int := 7
/-- The label `No`. -/
def No : Int := 8
/-- The label `Ok`. -/
def Ok : Int := 9
/-- The label `TestAction`. -/
def TestAction : Int := 10
/-- The label `InstallAction`. -/
def InstallAction : Int := 11
/-- The label `UninstallAction`. -/
def UninstallAction : Int := 12
/-- The label `BuildAction`. -/
def BuildAction : Int := 13
/-- The label `CleanAction`. -/
def CleanAction : Int := 14

/-- The states of the machine: the member functions of `Meique` that `exec`
names with `STATE(...)`. -/
inductive State where
  | checkArgs
  | showHelp
  | showVersion
  | dumpProject
  | lookForMeiqueCache
  | lookForMeiqueLua
  | configureProject
  | getBuildAction
  | testTargets
  | installTargets
  | uninstallTargets
  | buildTargets
  | cleanTargets
  deriving DecidableEq, Repr

/-- Modelled from the spec: the class `StateMachine` (declared in
`statemachine.h`), "a transition table indexed by (state, label) → next state,
with a small dispatcher loop"; the table as the list of its entries. -/
structure StateMachine where
  transitions : List ((State × Int) × State)
  deriving DecidableEq, Repr

namespace StateMachine

/-- Modelled from the spec: the assignment `machine[state][label] = next` on a
`StateMachine` (declared in `statemachine.h`): overwrites the entry of
`(state, label)`, or adds one. -/
def set (machine : StateMachine) (state : State) (label : Int) (next : State) : StateMachine :=
  if machine.transitions.any (fun e => e.1 = (state, label)) then
    ⟨machine.transitions.map (fun e => if e.1 = (state, label) then ((state, label), next) else e)⟩
  else ⟨machine.transitions ++ [((state, label), next)]⟩

/-- Modelled from the spec: the lookup of the successor of `state` under
`label` in a `StateMachine` (declared in `statemachine.h`); `none` when the
table has no such entry. -/
def next (machine : StateMachine) (state : State) (label : Int) : Option State :=
  match machine.transitions.find? (fun e => e.1 = (state, label)) with
  | some e => some e.2
  | none => none

/-- Modelled from the spec: `StateMachine::execute` (declared in
`statemachine.h`), the dispatcher loop: run the state function, look the label
it returns up in the table, go on with the successor, stop when there is
none. `run` runs the state function of a state, one that returns, on the
state `W` of the world and yields its label; the result is the sequence of the
states run and the world they leave, `none` when `fuel` steps do not reach the
end. -/
def execute {W : Type} (machine : StateMachine) (run : State → W → Int × W) :
    Nat → State → W → Option (List State × W)
  | 0, _, _ => none
  | fuel + 1, state, w =>
    match machine.next state (run state w).1 with
    | none => some ([state], (run state w).2)
    | some successor =>
      match execute machine run fuel successor (run state w).2 with
      | some (trace, w1) => some (state :: trace, w1)
      | none => none

end StateMachine

/-- The table `Meique::exec` builds, assignment by assignment. -/
def execMachine : StateMachine :=
  let machine : StateMachine := ⟨[]⟩
  let machine := machine.set State.checkArgs HasHelpArg State.showHelp
  let machine := machine.set State.checkArgs HasVersionArg State.showVersion
  let machine := machine.set State.checkArgs NormalArgs State.lookForMeiqueCache
  let machine := machine.set State.checkArgs DumpProject State.dumpProject
  let machine := machine.set State.lookForMeiqueCache Found State.getBuildAction
  let machine := machine.set State.lookForMeiqueCache NotFound State.lookForMeiqueLua
  let machine := machine.set State.lookForMeiqueLua Found State.configureProject
  let machine := machine.set State.lookForMeiqueLua NotFound State.showHelp
  let machine := machine.set State.configureProject Ok State.getBuildAction
  let machine := machine.set State.getBuildAction TestAction State.testTargets
  let machine := machine.set State.getBuildAction InstallAction State.installTargets
  let machine := machine.set State.getBuildAction UninstallAction State.uninstallTargets
  let machine := machine.set State.getBuildAction BuildAction State.buildTargets
  machine.set State.getBuildAction CleanAction State.cleanTargets

/-- The function `Meique::exec`: the table is built and the machine is run
from `checkArgs`. -/
def exec {W : Type} (run : State → W → Int × W) (fuel : Nat) (w : W) :
    Option (List State × W) :=
  execMachine.execute run fuel State.checkArgs w

/-- What the body of the `try` block of `Meique::configureProject` (the
evaluation of the project script and the summary) does to the cache of the
script: the cache as it leaves it, and the error it raised, if any. -/
structure ScriptRun where
  cache : MeiqueCache
  error : Option String
  deriving DecidableEq, Repr

/-- The function `Meique::configureProject`, on the cache of the script it
creates: `script` is the body of the `try` block, `stopAfterConfigure` the
flag `-s`. The result is the cache as the function leaves it, and the label
it returns or the error it lets through. -/
def configureProject (script : MeiqueCache → ScriptRun) (stopAfterConfigure : Bool)
    (cache : MeiqueCache) : MeiqueCache × Except String Int :=
  match (script cache).error with
  | some e => ((script cache).cache.setAutoSave false, Except.error e)
  | none => ((script cache).cache, Except.ok (if stopAfterConfigure then 0 else Ok))

/-- The transition table as the specification gives it: the successor of a
state under a label, `none` for every pair it does not list. -/
def specifiedTransition (state : State) (label : Int) : Option State :=
  match state with
  | State.checkArgs =>
    if label = HasHelpArg then some State.showHelp
    else if label = HasVersionArg then some State.showVersion
    else if label = DumpProject then some State.dumpProject
    else if label = NormalArgs then some State.lookForMeiqueCache
    else none
  | State.lookForMeiqueCache =>
    if label = Found then some State.getBuildAction
    else if label = NotFound then some State.lookForMeiqueLua
    else none
  | State.lookForMeiqueLua =>
    if label = Found then some State.configureProject
    else if label = NotFound then some State.showHelp
    else none
  | State.configureProject =>
    if label = Ok then some State.getBuildAction else none
  | State.getBuildAction =>
    if label = BuildAction then some State.buildTargets
    else if label = CleanAction then some State.cleanTargets
    else if label = InstallAction then some State.installTargets
    else if label = UninstallAction then some State.uninstallTargets
    else if label = TestAction then some State.testTargets
    else none
  | _ => none

/-- The number of transitions that can still follow a state. -/
def State.rank : State → Nat
  | State.checkArgs => 5
  | State.lookForMeiqueCache => 4
  | State.lookForMeiqueLua => 3
  | State.configureProject => 2
  | State.getBuildAction => 1
  | _ => 0

/-- A cache whose install prefix holds a backslash, with a user option of the
same value. -/
def backslashCache : MeiqueCache :=
  { sampleCache with userOptions := [("tools", "C:\\tools")], installPrefix := "C:\\tools" }

/-- A script whose evaluation records a compiler and then raises. -/
def failingScript (cache : MeiqueCache) : ScriptRun :=
  { cache := { cache with compilerId := "gcc" }, error := some "meique.lua:3: syntax error" }

/-! ## Theorems -/

theorem foldl_push_back_map (f : String → String) (xs : StringList) (acc : StringList) :
    xs.foldl (fun a x => push_back a (f x)) acc = acc ++ xs.map f := by
  induction xs generalizing acc with
  | nil => simp
  | cons x xs ih =>
    simp only [List.foldl_cons, List.map_cons]
    rw [ih]
    simp [push_back]

theorem copyBack_eq (src dst : StringList) : copyBack src dst = dst ++ src := by
  have h := foldl_push_back_map id src dst
  simpa [copyBack] using h

/-- C7: `Gcc::compile` yields the program `gcc` for a C source and `g++` for a
C++ source, with the argument list `-c <src> -o <out>`, then `-fpic` when
compiling for a library, then `-ggdb` when debug info is enabled, then the
custom flags, then `-I"path"` per include path, then `-D<def>` per define, all in
their given order; for any other language it raises an error and yields no
job. -/
theorem gcc_compile_command (identifyLanguage : String → Language)
    (fileName output : String) (o : CompilerOptions) :
    Gcc.compile identifyLanguage fileName output o =
      (match identifyLanguage fileName with
       | Language.CLanguage => Except.ok
          { command := "gcc",
            args := ["-c", fileName, "-o", output]
              ++ (if o.compileForLibrary then ["-fpic"] else [])
              ++ (if o.debugInfoEnabled then ["-ggdb"] else [])
              ++ o.customFlags
              ++ o.includePaths.map (fun p => "-I\"" ++ p ++ "\"")
              ++ o.defines.map (fun d => "-D" ++ d) }
       | Language.CPlusPlusLanguage => Except.ok
          { command := "g++",
            args := ["-c", fileName, "-o", output]
              ++ (if o.compileForLibrary then ["-fpic"] else [])
              ++ (if o.debugInfoEnabled then ["-ggdb"] else [])
              ++ o.customFlags
              ++ o.includePaths.map (fun p => "-I\"" ++ p ++ "\"")
              ++ o.defines.map (fun d => "-D" ++ d) }
       | Language.UnsupportedLanguage =>
          Except.error ("Unknown programming language used for " ++ fileName)) := by
  unfold Gcc.compile
  simp only [foldl_push_back_map, copyBack_eq]
  cases identifyLanguage fileName <;> cases o.compileForLibrary <;>
    cases o.debugInfoEnabled <;> simp [push_back]

/-- C8: for link type Executable and language C or C++, `Gcc::link` yields the
program `g++` (C++) or `gcc` (C) with exactly the objects, `-o <out>`, the
custom flags, `-L"path"` per library path, `-l<lib>` per library and the
static-library inputs, in that order, and none of the shared-object flags; with
empty options the job for `hello.cpp.o` and `hello` is
`g++ hello.cpp.o -o hello`. -/
theorem gcc_link_executable (output : String) (objects : StringList) (o : LinkerOptions)
    (hType : o.linkType = LinkType.Executable)
    (hLang : o.language = Language.CPlusPlusLanguage ∨ o.language = Language.CLanguage) :
    Gcc.link output objects o = Except.ok
        { command := if o.language = Language.CPlusPlusLanguage then "g++" else "gcc",
          args := objects ++ ["-o", output] ++ o.customFlags
            ++ o.libraryPath.map (fun p => "-L\"" ++ p ++ "\"")
            ++ o.libraries.map (fun l => "-l" ++ l)
            ++ o.staticLibraries }
      ∧ Gcc.link "hello" ["hello.cpp.o"]
          { linkType := LinkType.Executable, language := Language.CPlusPlusLanguage,
            customFlags := [], libraryPath := [], libraries := [], staticLibraries := [] }
        = Except.ok { command := "g++", args := ["hello.cpp.o", "-o", "hello"] } := by
  constructor
  · unfold Gcc.link
    simp only [foldl_push_back_map, copyBack_eq]
    rcases hLang with h | h <;> simp [push_back, hType, h]
  · decide

/-- Witness of C8: a C executable with one flag of every kind. -/
theorem gcc_link_executable_witness :
    Gcc.link "prog" ["a.c.o", "b.c.o"]
        { linkType := LinkType.Executable, language := Language.CLanguage,
          customFlags := ["-O2"], libraryPath := ["/opt/lib"], libraries := ["m"],
          staticLibraries := ["libz.a"] }
      = Except.ok
          { command := "gcc",
            args := ["a.c.o", "b.c.o", "-o", "prog", "-O2", "-L\"/opt/lib\"", "-lm", "libz.a"] } :=
  (gcc_link_executable "prog" ["a.c.o", "b.c.o"]
    { linkType := LinkType.Executable, language := Language.CLanguage,
      customFlags := ["-O2"], libraryPath := ["/opt/lib"], libraries := ["m"],
      staticLibraries := ["libz.a"] } rfl (Or.inr rfl)).1

/-- C9, as stated, fails: for a shared library the argument list does not begin
with `-shared -fpic -Wl,-soname=<out>`; the three `push_front` calls leave
`-Wl,-soname=<out>` first. -/
theorem gcc_link_shared_order_counterexample :
    Gcc.link "libfoo.so" ["foo.cpp.o"]
        { linkType := LinkType.SharedLibrary, language := Language.CPlusPlusLanguage,
          customFlags := [], libraryPath := [], libraries := [], staticLibraries := [] }
      = Except.ok
          { command := "g++",
            args := ["-Wl,-soname=libfoo.so", "-shared", "-fpic", "foo.cpp.o", "-o", "libfoo.so"] }
    ∧ Gcc.link "libfoo.so" ["foo.cpp.o"]
        { linkType := LinkType.SharedLibrary, language := Language.CPlusPlusLanguage,
          customFlags := [], libraryPath := [], libraries := [], staticLibraries := [] }
      ≠ Except.ok
          { command := "g++",
            args := ["-shared", "-fpic", "-Wl,-soname=libfoo.so", "foo.cpp.o", "-o", "libfoo.so"] } := by
  decide

/-- C9, amended: for link type SharedLibrary and language C or C++, `Gcc::link`
yields the program `g++` (C++) or `gcc` (C) with the argument list
`-Wl,-soname=<out>`, `-shared`, `-fpic`, then the objects, `-o <out>`, the custom
flags, `-L"path"` per library path, `-l<lib>` per library and the static-library
inputs. -/
theorem gcc_link_shared (output : String) (objects : StringList) (o : LinkerOptions)
    (hType : o.linkType = LinkType.SharedLibrary)
    (hLang : o.language = Language.CPlusPlusLanguage ∨ o.language = Language.CLanguage) :
    Gcc.link output objects o = Except.ok
        { command := if o.language = Language.CPlusPlusLanguage then "g++" else "gcc",
          args := ["-Wl,-soname=" ++ output, "-shared", "-fpic"] ++ objects
            ++ ["-o", output] ++ o.customFlags
            ++ o.libraryPath.map (fun p => "-L\"" ++ p ++ "\"")
            ++ o.libraries.map (fun l => "-l" ++ l)
            ++ o.staticLibraries } := by
  unfold Gcc.link
  simp only [foldl_push_back_map, copyBack_eq]
  rcases hLang with h | h <;> simp [push_back, push_front, hType, h]

/-- Witness of the amended C9: a C shared library with one flag of every kind. -/
theorem gcc_link_shared_witness :
    Gcc.link "libfoo.so" ["a.c.o", "b.c.o"]
        { linkType := LinkType.SharedLibrary, language := Language.CLanguage,
          customFlags := ["-O2"], libraryPath := ["/opt/lib"], libraries := ["m"],
          staticLibraries := ["libz.a"] }
      = Except.ok
          { command := "gcc",
            args := ["-Wl,-soname=libfoo.so", "-shared", "-fpic", "a.c.o", "b.c.o", "-o",
              "libfoo.so", "-O2", "-L\"/opt/lib\"", "-lm", "libz.a"] } :=
  gcc_link_shared "libfoo.so" ["a.c.o", "b.c.o"]
    { linkType := LinkType.SharedLibrary, language := Language.CLanguage,
      customFlags := ["-O2"], libraryPath := ["/opt/lib"], libraries := ["m"],
      staticLibraries := ["libz.a"] } rfl (Or.inr rfl)

/-- C10: for link type StaticLibrary, whatever the language and the other
options, `Gcc::link` yields the program `ar` with exactly `-rcs`, the output
and the objects in order. -/
theorem gcc_link_static (output : String) (objects : StringList) (o : LinkerOptions)
    (hType : o.linkType = LinkType.StaticLibrary) :
    Gcc.link output objects o
      = Except.ok { command := "ar", args := ["-rcs", output] ++ objects } := by
  unfold Gcc.link
  simp [push_front, hType]

/-- Witness of C10: an archive requested with an unsupported language and with
flags, paths and libraries set; none of them reaches the command. -/
theorem gcc_link_static_witness :
    Gcc.link "libfoo.a" ["a.o", "b.o"]
        { linkType := LinkType.StaticLibrary, language := Language.UnsupportedLanguage,
          customFlags := ["-O2"], libraryPath := ["/opt/lib"], libraries := ["m"],
          staticLibraries := ["libz.a"] }
      = Except.ok { command := "ar", args := ["-rcs", "libfoo.a", "a.o", "b.o"] } :=
  gcc_link_static "libfoo.a" ["a.o", "b.o"]
    { linkType := LinkType.StaticLibrary, language := Language.UnsupportedLanguage,
      customFlags := ["-O2"], libraryPath := ["/opt/lib"], libraries := ["m"],
      staticLibraries := ["libz.a"] } rfl

/-! ### The build routine of a compilable target -/

theorem staleCompiles_nil (fs : FileSystem) (sd : String) (c : MeiqueCache) :
    staleCompiles fs sd c [] = [] := by
  simp [staleCompiles]

theorem staleCompiles_cons (fs : FileSystem) (sd : String) (c : MeiqueCache)
    (f : String) (rest : StringList) :
    staleCompiles fs sd c (f :: rest) =
      (if isStale fs sd c f then [Request.compile (sd ++ f) (f ++ ".o")] else [])
        ++ staleCompiles fs sd (c.setFileHash (sd ++ f) (fs.fileHash (sd ++ f))) rest := by
  simp only [staleCompiles, List.inits_cons, List.zip_cons_cons, List.zip_map_left,
    List.filter_cons, List.filter_map, List.map_map]
  by_cases h : isStale fs sd c f = true
  · simp [cacheAfter, h, Function.comp_def]
  · simp [cacheAfter, h, Function.comp_def]

theorem doRunLoop_finished (compiler : Compiler) (fs : FileSystem) (options : CompilerOptions)
    (sd : String) (files : StringList) :
    ∀ (cache : MeiqueCache) (reqs : List Request) (nl : Bool) (objs : StringList)
      (cache1 : MeiqueCache) (reqs1 : List Request) (nl1 : Bool) (objs1 : StringList),
      doRunLoop compiler fs options sd files cache reqs nl objs
          = (cache1, reqs1, LoopExit.finished nl1 objs1) →
        cache1 = cacheAfter fs sd cache files
          ∧ reqs1 = reqs ++ staleCompiles fs sd cache files
          ∧ nl1 = (nl || !(staleCompiles fs sd cache files).isEmpty)
          ∧ objs1 = objs ++ files.map (fun f => f ++ ".o") := by
  induction files with
  | nil =>
    intro cache reqs nl objs cache1 reqs1 nl1 objs1 h
    simp only [doRunLoop, Prod.mk.injEq, LoopExit.finished.injEq] at h
    obtain ⟨h1, h2, h3, h4⟩ := h
    simp [staleCompiles_nil, cacheAfter, h1, h2, h3, h4]
  | cons f rest ih =>
    intro cache reqs nl objs cache1 reqs1 nl1 objs1 h
    rw [staleCompiles_cons]
    unfold doRunLoop at h
    simp only at h
    by_cases hs : isStale fs sd cache f = true
    · have hs2 : (!fs.fileExists (f ++ ".o") ||
          fs.fileHash (sd ++ f) != cache.fileHash (sd ++ f)) = true := hs
      rw [if_pos hs2] at h
      cases hc : compiler.compile (sd ++ f) (f ++ ".o") options with
      | error e => rw [hc] at h; simp at h
      | ok j =>
        cases j with
        | none => rw [hc] at h; simp at h
        | some job =>
          rw [hc] at h
          simp only at h
          obtain ⟨h1, h2, h3, h4⟩ := ih _ _ _ _ _ _ _ _ h
          refine ⟨?_, ?_, ?_, ?_⟩
          · rw [h1]; rfl
          · rw [h2]; simp [hs]
          · rw [h3]; simp [hs]
          · rw [h4]; simp [push_back]
    · have hs2 : ¬ ((!fs.fileExists (f ++ ".o") ||
          fs.fileHash (sd ++ f) != cache.fileHash (sd ++ f)) = true) := hs
      rw [if_neg hs2] at h
      obtain ⟨h1, h2, h3, h4⟩ := ih _ _ _ _ _ _ _ _ h
      refine ⟨?_, ?_, ?_, ?_⟩
      · rw [h1]; rfl
      · rw [h2]; simp [hs]
      · rw [h3]; simp [hs]
      · rw [h4]; simp [push_back]

theorem SMap.find_set_self {α : Type} (m : SMap α) (k : String) (v : α) :
    (m.set k v).find k = some v := by
  induction m with
  | nil => simp [SMap.set, SMap.find]
  | cons e m ih =>
    obtain ⟨k1, v1⟩ := e
    by_cases h : k1 = k
    · simp [SMap.set, SMap.find, h]
    · simp [SMap.set, SMap.find, h, ih]

theorem SMap.find_set_ne {α : Type} (m : SMap α) (k k2 : String) (v : α) (hne : k ≠ k2) :
    (m.set k v).find k2 = m.find k2 := by
  induction m with
  | nil => simp [SMap.set, SMap.find, hne]
  | cons e m ih =>
    obtain ⟨k1, v1⟩ := e
    by_cases h : k1 = k
    · subst h
      simp [SMap.set, SMap.find, hne]
    · by_cases h2 : k1 = k2
      · simp only [SMap.set, if_neg h, SMap.find, if_pos h2]
      · simp only [SMap.set, if_neg h, SMap.find, if_neg h2, ih]

theorem MeiqueCache.fileHash_setFileHash_self (c : MeiqueCache) (path hex : String) :
    (c.setFileHash path hex).fileHash path = hex := by
  simp [MeiqueCache.fileHash, MeiqueCache.setFileHash, SMap.find_set_self]

theorem MeiqueCache.fileHash_setFileHash_ne (c : MeiqueCache) (path path2 hex : String)
    (hne : path ≠ path2) :
    (c.setFileHash path hex).fileHash path2 = c.fileHash path2 := by
  simp [MeiqueCache.fileHash, MeiqueCache.setFileHash, SMap.find_set_ne _ _ _ _ hne]

theorem cacheAfter_sourceDir (fs : FileSystem) (sd : String) (pre : StringList) :
    ∀ c : MeiqueCache, (cacheAfter fs sd c pre).sourceDir = c.sourceDir := by
  induction pre with
  | nil => intro c; rfl
  | cons p pre ih =>
    intro c
    simp only [cacheAfter, List.foldl_cons]
    exact ih _

/-- Recording the hashes of further sources keeps a recorded hash that is
already the current one. -/
theorem cacheAfter_fileHash_stable (fs : FileSystem) (sd : String) (path : String)
    (pre : StringList) :
    ∀ c : MeiqueCache, c.fileHash path = fs.fileHash path →
      (cacheAfter fs sd c pre).fileHash path = fs.fileHash path := by
  induction pre with
  | nil => intro c h; exact h
  | cons p pre ih =>
    intro c h
    simp only [cacheAfter, List.foldl_cons]
    apply ih
    by_cases hp : sd ++ p = path
    · rw [hp, MeiqueCache.fileHash_setFileHash_self]
    · rw [MeiqueCache.fileHash_setFileHash_ne _ _ _ _ hp]; exact h

theorem cacheAfter_fileHash_mem (fs : FileSystem) (sd : String) (files : StringList) :
    ∀ (c : MeiqueCache) (s : String), s ∈ files →
      (cacheAfter fs sd c files).fileHash (sd ++ s) = fs.fileHash (sd ++ s) := by
  induction files with
  | nil => intro c s hs; simp at hs
  | cons f rest ih =>
    intro c s hs
    rcases List.mem_cons.mp hs with h | h
    · subst h
      simp only [cacheAfter, List.foldl_cons]
      exact cacheAfter_fileHash_stable fs sd _ rest _
        (MeiqueCache.fileHash_setFileHash_self _ _ _)
    · simp only [cacheAfter, List.foldl_cons]
      exact ih _ s h

/-- A pass over sources none of which is stale requests nothing and ends
normally. -/
theorem doRunLoop_all_fresh (compiler : Compiler) (fs : FileSystem) (options : CompilerOptions)
    (sd : String) (files : StringList) :
    ∀ (cache : MeiqueCache) (reqs : List Request) (nl : Bool) (objs : StringList),
      (∀ s ∈ files, fs.fileExists (s ++ ".o") = true
        ∧ cache.fileHash (sd ++ s) = fs.fileHash (sd ++ s)) →
      doRunLoop compiler fs options sd files cache reqs nl objs
        = (cacheAfter fs sd cache files, reqs,
            LoopExit.finished nl (objs ++ files.map (fun f => f ++ ".o"))) := by
  induction files with
  | nil => intro cache reqs nl objs _; simp [doRunLoop, cacheAfter]
  | cons f rest ih =>
    intro cache reqs nl objs h
    obtain ⟨hex, hh⟩ := h f (List.mem_cons_self _ _)
    unfold doRunLoop
    simp only
    have hs : ¬ ((!fs.fileExists (f ++ ".o") ||
        fs.fileHash (sd ++ f) != cache.fileHash (sd ++ f)) = true) := by
      simp [hex, hh]
    rw [if_neg hs, ih]
    · simp [cacheAfter, push_back]
    · intro s hsmem
      obtain ⟨hex2, hh2⟩ := h s (List.mem_cons_of_mem _ hsmem)
      refine ⟨hex2, ?_⟩
      by_cases hp : sd ++ f = sd ++ s
      · rw [hp, MeiqueCache.fileHash_setFileHash_self]
      · rw [MeiqueCache.fileHash_setFileHash_ne _ _ _ _ hp]; exact hh2

/-- What a run of `doRun` that ends without error has done. -/
theorem doRun_ok (compiler : Compiler) (fs : FileSystem) (t : CompilableTarget)
    (cache : MeiqueCache) (h : (doRun compiler fs t cache).error = none) :
    t.files ≠ []
      ∧ (doRun compiler fs t cache).cache
          = cacheAfter fs (cache.sourceRoot ++ t.directory) cache t.files
      ∧ (doRun compiler fs t cache).requests
          = staleCompiles fs (cache.sourceRoot ++ t.directory) cache t.files
            ++ (if staleCompiles fs (cache.sourceRoot ++ t.directory) cache t.files = [] then []
                else [Request.link t.name (t.files.map (fun f => f ++ ".o"))]) := by
  unfold doRun at h ⊢
  by_cases he : t.files.isEmpty = true
  · simp [he] at h
  · have hne : t.files ≠ [] := by
      intro h0; apply he; simp [h0]
    simp only [he, Bool.false_eq_true, ↓reduceIte] at h ⊢
    rcases hl : doRunLoop compiler fs t.compilerOptions (cache.sourceRoot ++ t.directory)
        t.files cache [] false [] with ⟨c1, r1, ex⟩
    rw [hl] at h
    cases ex with
    | raised e => simp at h
    | finished nl objs =>
      obtain ⟨h1, h2, h3, h4⟩ := doRunLoop_finished _ _ _ _ _ _ _ _ _ _ _ _ _ hl
      simp only at h ⊢
      refine ⟨hne, ?_, ?_⟩
      · by_cases hn : nl = true
        · simp only [hn, ↓reduceIte] at h ⊢
          cases hk : compiler.link t.name objs t.linkerOptions with
          | error e => rw [hk] at h; simp at h
          | ok j => simp [h1]
        · simp [hn, h1]
      · by_cases hn : nl = true
        · simp only [hn, ↓reduceIte] at h ⊢
          have hne2 : staleCompiles fs (cache.sourceRoot ++ t.directory) cache t.files ≠ [] := by
            intro h0; rw [h0] at h3; simp [hn] at h3
          cases hk : compiler.link t.name objs t.linkerOptions with
          | error e => rw [hk] at h; simp at h
          | ok j => simp [h2, h4, hne2]
        · have he2 : staleCompiles fs (cache.sourceRoot ++ t.directory) cache t.files = [] := by
            rw [h3] at hn
            simpa using hn
          simp [hn, h2, he2]

theorem mem_inits_zip (l : StringList) :
    ∀ (pre : StringList) (s : String),
      (pre, s) ∈ l.inits.zip l ↔ ∃ post, l = pre ++ s :: post := by
  induction l with
  | nil => intro pre s; simp
  | cons a l ih =>
    intro pre s
    simp only [List.inits_cons, List.zip_cons_cons, List.zip_map_left, List.mem_cons,
      List.mem_map, Prod.mk.injEq, Prod.exists, Prod.map_apply, id_eq]
    constructor
    · rintro (⟨h1, h2⟩ | ⟨p, s2, hmem, h1, h2⟩)
      · subst h1; subst h2; exact ⟨l, rfl⟩
      · subst h1; subst h2
        obtain ⟨post, hpost⟩ := (ih p s2).mp hmem
        exact ⟨post, by rw [hpost]; rfl⟩
    · rintro ⟨post, hpost⟩
      cases pre with
      | nil =>
        left
        simp only [List.nil_append, List.cons.injEq] at hpost
        exact ⟨rfl, hpost.1.symm⟩
      | cons b p =>
        right
        simp only [List.cons_append, List.cons.injEq] at hpost
        refine ⟨p, s, (ih p s).mpr ⟨post, hpost.2⟩, ?_, rfl⟩
        rw [hpost.1]

theorem string_append_right_cancel (a b c : String) (h : a ++ c = b ++ c) : a = b := by
  have h2 : (a ++ c).data = (b ++ c).data := by rw [h]
  simp only [String.data_append] at h2
  exact String.ext (List.append_cancel_right h2)

theorem mem_staleCompiles (fs : FileSystem) (sd : String) (c : MeiqueCache)
    (files : StringList) (s : String) :
    Request.compile (sd ++ s) (s ++ ".o") ∈ staleCompiles fs sd c files
      ↔ ∃ pre post, files = pre ++ s :: post
          ∧ isStale fs sd (cacheAfter fs sd c pre) s = true := by
  simp only [staleCompiles, List.mem_map, List.mem_filter, Prod.exists, Request.compile.injEq]
  constructor
  · rintro ⟨pre, s2, ⟨hmem, hst⟩, _, h2⟩
    have hs : s2 = s := string_append_right_cancel _ _ _ h2
    subst hs
    obtain ⟨post, hpost⟩ := (mem_inits_zip files pre s2).mp hmem
    exact ⟨pre, post, hpost, hst⟩
  · rintro ⟨pre, post, hpost, hst⟩
    exact ⟨pre, s, ⟨(mem_inits_zip files pre s).mpr ⟨post, hpost⟩, hst⟩, rfl, rfl⟩

theorem staleCompiles_forall_compile (fs : FileSystem) (sd : String) (c : MeiqueCache)
    (files : StringList) (r : Request) (h : r ∈ staleCompiles fs sd c files) :
    ∃ s ∈ files, r = Request.compile (sd ++ s) (s ++ ".o") := by
  simp only [staleCompiles, List.mem_map, List.mem_filter, Prod.exists] at h
  obtain ⟨pre, s, ⟨hmem, _⟩, hr⟩ := h
  exact ⟨s, (List.of_mem_zip hmem).2, hr.symm⟩

/-- Every compile requested in a pass over `files` that reaches its end
yielded a job. -/
theorem doRunLoop_finished_compiled (compiler : Compiler) (fs : FileSystem)
    (options : CompilerOptions) (sd : String) (files : StringList) :
    ∀ (cache : MeiqueCache) (reqs : List Request) (nl : Bool) (objs : StringList)
      (cache1 : MeiqueCache) (reqs1 : List Request) (nl1 : Bool) (objs1 : StringList),
      doRunLoop compiler fs options sd files cache reqs nl objs
          = (cache1, reqs1, LoopExit.finished nl1 objs1) →
        ∀ r ∈ staleCompiles fs sd cache files,
          ∃ src out job, r = Request.compile src out
            ∧ compiler.compile src out options = Except.ok (some job) := by
  induction files with
  | nil =>
    intro cache reqs nl objs cache1 reqs1 nl1 objs1 _ r hr
    simp [staleCompiles_nil] at hr
  | cons f rest ih =>
    intro cache reqs nl objs cache1 reqs1 nl1 objs1 h r hr
    rw [staleCompiles_cons] at hr
    unfold doRunLoop at h
    simp only at h
    by_cases hs : isStale fs sd cache f = true
    · have hs2 : (!fs.fileExists (f ++ ".o") ||
          fs.fileHash (sd ++ f) != cache.fileHash (sd ++ f)) = true := hs
      rw [if_pos hs2] at h
      cases hc : compiler.compile (sd ++ f) (f ++ ".o") options with
      | error e => rw [hc] at h; simp at h
      | ok j =>
        cases j with
        | none => rw [hc] at h; simp at h
        | some job =>
          rw [hc] at h
          simp only at h
          simp only [hs, if_true, List.singleton_append, List.mem_cons] at hr
          rcases hr with hr | hr
          · exact ⟨_, _, job, hr, hc⟩
          · exact ih _ _ _ _ _ _ _ _ h r hr
    · have hs2 : ¬ ((!fs.fileExists (f ++ ".o") ||
          fs.fileHash (sd ++ f) != cache.fileHash (sd ++ f)) = true) := hs
      rw [if_neg hs2] at h
      simp only [hs, Bool.false_eq_true, if_false, List.nil_append] at hr
      exact ih _ _ _ _ _ _ _ _ h r hr

/-- A pass over `files` that raises stops at a stale source whose compile
yields no job: the sources before it are recorded, the stale ones among them
were compiled, and the compile of that source is the last request. -/
theorem doRunLoop_raised (compiler : Compiler) (fs : FileSystem)
    (options : CompilerOptions) (sd : String) (files : StringList) :
    ∀ (cache : MeiqueCache) (reqs : List Request) (nl : Bool) (objs : StringList)
      (cache1 : MeiqueCache) (reqs1 : List Request) (e : String),
      doRunLoop compiler fs options sd files cache reqs nl objs
          = (cache1, reqs1, LoopExit.raised e) →
        ∃ pre s post, files = pre ++ s :: post
          ∧ isStale fs sd (cacheAfter fs sd cache pre) s = true
          ∧ (∀ job, compiler.compile (sd ++ s) (s ++ ".o") options ≠ Except.ok (some job))
          ∧ (∀ r ∈ staleCompiles fs sd cache pre,
              ∃ src out job, r = Request.compile src out
                ∧ compiler.compile src out options = Except.ok (some job))
          ∧ cache1 = cacheAfter fs sd cache pre
          ∧ reqs1 = reqs ++ staleCompiles fs sd cache pre
              ++ [Request.compile (sd ++ s) (s ++ ".o")] := by
  induction files with
  | nil =>
    intro cache reqs nl objs cache1 reqs1 e h
    simp [doRunLoop] at h
  | cons f rest ih =>
    intro cache reqs nl objs cache1 reqs1 e h
    unfold doRunLoop at h
    simp only at h
    by_cases hs : isStale fs sd cache f = true
    · have hs2 : (!fs.fileExists (f ++ ".o") ||
          fs.fileHash (sd ++ f) != cache.fileHash (sd ++ f)) = true := hs
      rw [if_pos hs2] at h
      cases hc : compiler.compile (sd ++ f) (f ++ ".o") options with
      | error e2 =>
        rw [hc] at h
        simp only [Prod.mk.injEq, LoopExit.raised.injEq] at h
        refine ⟨[], f, rest, rfl, hs, ?_, ?_, h.1.symm, ?_⟩
        · intro job hjob; rw [hc] at hjob; simp at hjob
        · intro r hr; simp [staleCompiles_nil] at hr
        · simp [staleCompiles_nil, ← h.2.1]
      | ok j =>
        cases j with
        | none =>
          rw [hc] at h
          simp only [Prod.mk.injEq, LoopExit.raised.injEq] at h
          refine ⟨[], f, rest, rfl, hs, ?_, ?_, h.1.symm, ?_⟩
          · intro job hjob; rw [hc] at hjob; simp at hjob
          · intro r hr; simp [staleCompiles_nil] at hr
          · simp [staleCompiles_nil, ← h.2.1]
        | some job =>
          rw [hc] at h
          simp only at h
          obtain ⟨pre, s, post, h1, h2, h3, h4, h5, h6⟩ := ih _ _ _ _ _ _ _ h
          refine ⟨f :: pre, s, post, by rw [h1]; rfl, h2, h3, ?_, h5, ?_⟩
          · intro r hr
            rw [staleCompiles_cons] at hr
            simp only [hs, if_true, List.singleton_append, List.mem_cons] at hr
            rcases hr with hr | hr
            · exact ⟨_, _, job, hr, hc⟩
            · exact h4 r hr
          · rw [h6, staleCompiles_cons]
            simp [hs]
    · have hs2 : ¬ ((!fs.fileExists (f ++ ".o") ||
          fs.fileHash (sd ++ f) != cache.fileHash (sd ++ f)) = true) := hs
      rw [if_neg hs2] at h
      obtain ⟨pre, s, post, h1, h2, h3, h4, h5, h6⟩ := ih _ _ _ _ _ _ _ h
      refine ⟨f :: pre, s, post, by rw [h1]; rfl, h2, h3, ?_, h5, ?_⟩
      · intro r hr
        rw [staleCompiles_cons] at hr
        simp only [hs, Bool.false_eq_true, if_false, List.nil_append] at hr
        exact h4 r hr
      · rw [h6, staleCompiles_cons]
        simp [hs]

/-- A run of `doRun` in which a requested compile yields no job: it ends with
an error, the requests are the compiles of the stale sources before that
source and then its own, and there is no link among them. -/
theorem doRun_aborted (compiler : Compiler) (fs : FileSystem) (t : CompilableTarget)
    (cache : MeiqueCache) (s : String)
    (hreq : Request.compile (cache.sourceRoot ++ t.directory ++ s) (s ++ ".o")
      ∈ (doRun compiler fs t cache).requests)
    (hfail : ∀ job, compiler.compile (cache.sourceRoot ++ t.directory ++ s) (s ++ ".o")
      t.compilerOptions ≠ Except.ok (some job)) :
    (doRun compiler fs t cache).error ≠ none
      ∧ (∀ name objects, Request.link name objects ∉ (doRun compiler fs t cache).requests)
      ∧ ∃ pre post, t.files = pre ++ s :: post
          ∧ (doRun compiler fs t cache).requests
            = staleCompiles fs (cache.sourceRoot ++ t.directory) cache pre
              ++ [Request.compile (cache.sourceRoot ++ t.directory ++ s) (s ++ ".o")] := by
  unfold doRun at hreq ⊢
  by_cases he : t.files.isEmpty = true
  · simp [he] at hreq
  · simp only [he, Bool.false_eq_true, ↓reduceIte] at hreq ⊢
    rcases hl : doRunLoop compiler fs t.compilerOptions (cache.sourceRoot ++ t.directory)
        t.files cache [] false [] with ⟨c1, r1, ex⟩
    rw [hl] at hreq
    cases ex with
    | finished nl objs =>
      exfalso
      obtain ⟨_, h2, _, _⟩ := doRunLoop_finished _ _ _ _ _ _ _ _ _ _ _ _ _ hl
      have hall := doRunLoop_finished_compiled _ _ _ _ _ _ _ _ _ _ _ _ _ hl
      have hmem : Request.compile (cache.sourceRoot ++ t.directory ++ s) (s ++ ".o")
          ∈ staleCompiles fs (cache.sourceRoot ++ t.directory) cache t.files := by
        simp only at hreq
        rw [h2] at hreq
        by_cases hn : nl = true
        · simp only [hn, ↓reduceIte] at hreq
          cases hk : compiler.link t.name objs t.linkerOptions <;>
            (rw [hk] at hreq; simpa using hreq)
        · simpa [hn] using hreq
      obtain ⟨src, out, job, hr, hjob⟩ := hall _ hmem
      simp only [Request.compile.injEq] at hr
      rw [← hr.1, ← hr.2] at hjob
      exact hfail job hjob
    | raised e =>
      obtain ⟨pre, s0, post, h1, _, _, h4, _, h6⟩ := doRunLoop_raised _ _ _ _ _ _ _ _ _ _ _ _ hl
      simp only [List.nil_append] at h6
      simp only at hreq ⊢
      have hs : s = s0 := by
        rw [h6] at hreq
        rcases List.mem_append.mp hreq with hm | hm
        · exfalso
          obtain ⟨src, out, job, hr, hjob⟩ := h4 _ hm
          simp only [Request.compile.injEq] at hr
          rw [← hr.1, ← hr.2] at hjob
          exact hfail job hjob
        · simp only [List.mem_singleton, Request.compile.injEq] at hm
          exact string_append_right_cancel _ _ _ hm.2
      subst hs
      refine ⟨by simp, ?_, pre, post, h1, h6⟩
      intro name objects hmem
      rw [h6] at hmem
      rcases List.mem_append.mp hmem with hm | hm
      · obtain ⟨s2, _, hs2⟩ := staleCompiles_forall_compile _ _ _ _ _ hm
        simp at hs2
      · simp at hm

/-- C1, as stated, fails: a run that a failing compile aborts has requested
compiles and requests no link. Here the GCC backend compiles `a.cpp` and then
raises on `notes.txt`, whose language it does not know. -/
theorem doRun_link_iff_compiled_counterexample :
    (doRun (Gcc.compiler sampleIdentifyLanguage) sourcesOnly mixedTarget sampleCache).requests
        = [Request.compile "/src/a.cpp" "a.cpp.o",
           Request.compile "/src/notes.txt" "notes.txt.o"]
      ∧ (doRun (Gcc.compiler sampleIdentifyLanguage) sourcesOnly mixedTarget sampleCache).error
        = some "Unknown programming language used for /src/notes.txt"
      ∧ ¬ ((∃ objects, Request.link "app" objects ∈
              (doRun (Gcc.compiler sampleIdentifyLanguage) sourcesOnly mixedTarget
                sampleCache).requests)
            ↔ (∃ s ∈ mixedTarget.files, Request.compile ("/src/" ++ s) (s ++ ".o") ∈
              (doRun (Gcc.compiler sampleIdentifyLanguage) sourcesOnly mixedTarget
                sampleCache).requests)) := by
  have hreq : (doRun (Gcc.compiler sampleIdentifyLanguage) sourcesOnly mixedTarget
      sampleCache).requests
        = [Request.compile "/src/a.cpp" "a.cpp.o",
           Request.compile "/src/notes.txt" "notes.txt.o"] := by decide
  refine ⟨hreq, by decide, ?_⟩
  rw [hreq]
  intro h
  obtain ⟨objects, hmem⟩ := h.mpr ⟨"a.cpp", by decide, by decide⟩
  simp at hmem

/-- C1, amended: when `doRun` ends without error, it has requested a compile of
a source `s` (input sourceRoot + targetDir + s, output `s.o`) if and only if, at
an occurrence of `s` in the source list, the object `s.o` does not exist or the
content hash of the resolved source differs from the hash the cache holds for
that path once the sources before that occurrence are recorded; and it has
requested the link of the target (over all the objects, in order) if and only
if it requested at least one compile. The requests are the stale sources in
list order, then the link. When a compile that `doRun` requests yields no job
(the backend raises or returns null), `doRun` ends with an error: that compile
is its last request, after the compiles of the stale sources before that
source, and no link is requested. -/
theorem doRun_requests (compiler : Compiler) (fs : FileSystem) (t : CompilableTarget)
    (cache : MeiqueCache) :
    ((doRun compiler fs t cache).error = none →
      (∀ s : String,
          Request.compile (cache.sourceRoot ++ t.directory ++ s) (s ++ ".o")
              ∈ (doRun compiler fs t cache).requests
            ↔ ∃ pre post, t.files = pre ++ s :: post
                ∧ (fs.fileExists (s ++ ".o") = false
                    ∨ fs.fileHash (cache.sourceRoot ++ t.directory ++ s)
                      ≠ (cacheAfter fs (cache.sourceRoot ++ t.directory) cache pre).fileHash
                          (cache.sourceRoot ++ t.directory ++ s)))
        ∧ (Request.link t.name (t.files.map (fun f => f ++ ".o"))
              ∈ (doRun compiler fs t cache).requests
            ↔ ∃ s ∈ t.files,
                Request.compile (cache.sourceRoot ++ t.directory ++ s) (s ++ ".o")
                  ∈ (doRun compiler fs t cache).requests)
        ∧ (doRun compiler fs t cache).requests
            = staleCompiles fs (cache.sourceRoot ++ t.directory) cache t.files
              ++ (if staleCompiles fs (cache.sourceRoot ++ t.directory) cache t.files = []
                  then []
                  else [Request.link t.name (t.files.map (fun f => f ++ ".o"))]))
    ∧ (∀ s : String,
        Request.compile (cache.sourceRoot ++ t.directory ++ s) (s ++ ".o")
            ∈ (doRun compiler fs t cache).requests →
        (∀ job, compiler.compile (cache.sourceRoot ++ t.directory ++ s) (s ++ ".o")
            t.compilerOptions ≠ Except.ok (some job)) →
        (doRun compiler fs t cache).error ≠ none
          ∧ (∀ name objects,
              Request.link name objects ∉ (doRun compiler fs t cache).requests)
          ∧ ∃ pre post, t.files = pre ++ s :: post
              ∧ (doRun compiler fs t cache).requests
                = staleCompiles fs (cache.sourceRoot ++ t.directory) cache pre
                  ++ [Request.compile (cache.sourceRoot ++ t.directory ++ s) (s ++ ".o")]) := by
  refine ⟨fun hok => ?_, fun s hreq hfail => doRun_aborted compiler fs t cache s hreq hfail⟩
  obtain ⟨_, _, hreq⟩ := doRun_ok compiler fs t cache hok
  have hcomp : ∀ s : String,
      Request.compile (cache.sourceRoot ++ t.directory ++ s) (s ++ ".o")
          ∈ (doRun compiler fs t cache).requests
        ↔ Request.compile (cache.sourceRoot ++ t.directory ++ s) (s ++ ".o")
          ∈ staleCompiles fs (cache.sourceRoot ++ t.directory) cache t.files := by
    intro s
    rw [hreq]
    by_cases he : staleCompiles fs (cache.sourceRoot ++ t.directory) cache t.files = []
    · simp [he]
    · simp [he]
  refine ⟨?_, ?_, hreq⟩
  · intro s
    rw [hcomp s, mem_staleCompiles]
    simp [isStale]
  · constructor
    · intro hl
      rw [hreq] at hl
      by_cases he : staleCompiles fs (cache.sourceRoot ++ t.directory) cache t.files = []
      · simp [he] at hl
      · obtain ⟨r, rs, hrs⟩ := List.exists_cons_of_ne_nil he
        have hr : r ∈ staleCompiles fs (cache.sourceRoot ++ t.directory) cache t.files := by
          rw [hrs]; exact List.mem_cons_self _ _
        obtain ⟨s, hs, hrs2⟩ := staleCompiles_forall_compile _ _ _ _ r hr
        exact ⟨s, hs, (hcomp s).mpr (hrs2 ▸ hr)⟩
    · rintro ⟨s, _, hs⟩
      have hs2 := (hcomp s).mp hs
      have he : staleCompiles fs (cache.sourceRoot ++ t.directory) cache t.files ≠ [] :=
        List.ne_nil_of_mem hs2
      rw [hreq]
      simp [he]

/-- Witness of the amended C1: the first build of `hello` with the GCC backend
ends without error, having requested one compile and the link; the build of
`app` stops at `notes.txt`, whose compile raises, with an error and without a
link. -/
theorem doRun_requests_witness :
    (doRun (Gcc.compiler sampleIdentifyLanguage) sourcesOnly helloTarget sampleCache).error = none
      ∧ (doRun (Gcc.compiler sampleIdentifyLanguage) sourcesOnly helloTarget sampleCache).requests
        = [Request.compile "/src/hello.cpp" "hello.cpp.o", Request.link "hello" ["hello.cpp.o"]]
      ∧ (Request.link helloTarget.name (helloTarget.files.map (fun f => f ++ ".o"))
            ∈ (doRun (Gcc.compiler sampleIdentifyLanguage) sourcesOnly helloTarget
                sampleCache).requests
          ↔ ∃ s ∈ helloTarget.files,
              Request.compile (sampleCache.sourceRoot ++ helloTarget.directory ++ s) (s ++ ".o")
                ∈ (doRun (Gcc.compiler sampleIdentifyLanguage) sourcesOnly helloTarget
                    sampleCache).requests)
      ∧ Request.compile "/src/notes.txt" "notes.txt.o"
          ∈ (doRun (Gcc.compiler sampleIdentifyLanguage) sourcesOnly mixedTarget
              sampleCache).requests
      ∧ (Gcc.compiler sampleIdentifyLanguage).compile "/src/notes.txt" "notes.txt.o" noOptions
          = Except.error "Unknown programming language used for /src/notes.txt"
      ∧ (doRun (Gcc.compiler sampleIdentifyLanguage) sourcesOnly mixedTarget sampleCache).error
          ≠ none
      ∧ ∀ name objects, Request.link name objects
          ∉ (doRun (Gcc.compiler sampleIdentifyLanguage) sourcesOnly mixedTarget
              sampleCache).requests :=
  ⟨by decide, by decide,
    ((doRun_requests (Gcc.compiler sampleIdentifyLanguage) sourcesOnly helloTarget
      sampleCache).1 (by decide)).2.1,
    by decide, by decide,
    ((doRun_requests (Gcc.compiler sampleIdentifyLanguage) sourcesOnly mixedTarget
      sampleCache).2 "notes.txt" (by decide)
      (fun job h => by
        rw [show (Gcc.compiler sampleIdentifyLanguage).compile
            (sampleCache.sourceRoot ++ mixedTarget.directory ++ "notes.txt")
            ("notes.txt" ++ ".o") mixedTarget.compilerOptions
          = Except.error "Unknown programming language used for /src/notes.txt" from by decide]
          at h
        cases h)).1,
    ((doRun_requests (Gcc.compiler sampleIdentifyLanguage) sourcesOnly mixedTarget
      sampleCache).2 "notes.txt" (by decide)
      (fun job h => by
        rw [show (Gcc.compiler sampleIdentifyLanguage).compile
            (sampleCache.sourceRoot ++ mixedTarget.directory ++ "notes.txt")
            ("notes.txt" ++ ".o") mixedTarget.compilerOptions
          = Except.error "Unknown programming language used for /src/notes.txt" from by decide]
          at h
        cases h)).2.1⟩

/-- C6: when `doRun` ends without error, the hash the cache records for the
resolved path of every source of the target, compiled or skipped, is the
content hash of that file computed in the run. -/
theorem doRun_records_hashes (compiler : Compiler) (fs : FileSystem) (t : CompilableTarget)
    (cache : MeiqueCache) (hok : (doRun compiler fs t cache).error = none)
    (s : String) (hs : s ∈ t.files) :
    (doRun compiler fs t cache).cache.fileHash (cache.sourceRoot ++ t.directory ++ s)
      = fs.fileHash (cache.sourceRoot ++ t.directory ++ s) := by
  obtain ⟨_, hcache, _⟩ := doRun_ok compiler fs t cache hok
  rw [hcache]
  exact cacheAfter_fileHash_mem fs _ t.files cache s hs

/-- Witness of C6: after the first build of `hello` the cache holds the hash of
`/src/hello.cpp`. -/
theorem doRun_records_hashes_witness :
    (doRun (Gcc.compiler sampleIdentifyLanguage) sourcesOnly helloTarget sampleCache).error = none
      ∧ (doRun (Gcc.compiler sampleIdentifyLanguage) sourcesOnly helloTarget
          sampleCache).cache.fileHash "/src/hello.cpp" = "a1b2" :=
  ⟨by decide,
    doRun_records_hashes (Gcc.compiler sampleIdentifyLanguage) sourcesOnly helloTarget sampleCache
      (by decide) "hello.cpp" (by decide)⟩

/-- C2: if a run of `doRun` ends without error and afterwards every source has
the content hash it had and every object `s.o` exists, a second `doRun` on
the resulting cache requests no compile and no link, and ends without error. -/
theorem doRun_twice_requests_nothing (compiler : Compiler) (fs1 fs2 : FileSystem)
    (t : CompilableTarget) (cache : MeiqueCache)
    (hok : (doRun compiler fs1 t cache).error = none)
    (hhash : ∀ s ∈ t.files,
      fs2.fileHash (cache.sourceRoot ++ t.directory ++ s)
        = fs1.fileHash (cache.sourceRoot ++ t.directory ++ s))
    (hobj : ∀ s ∈ t.files, fs2.fileExists (s ++ ".o") = true) :
    (doRun compiler fs2 t (doRun compiler fs1 t cache).cache).requests = []
      ∧ (doRun compiler fs2 t (doRun compiler fs1 t cache).cache).error = none := by
  obtain ⟨hne, hcache, _⟩ := doRun_ok compiler fs1 t cache hok
  have hroot : (doRun compiler fs1 t cache).cache.sourceRoot = cache.sourceRoot := by
    rw [hcache]
    exact cacheAfter_sourceDir fs1 _ t.files cache
  have hfresh : ∀ s ∈ t.files, fs2.fileExists (s ++ ".o") = true
      ∧ (doRun compiler fs1 t cache).cache.fileHash (cache.sourceRoot ++ t.directory ++ s)
        = fs2.fileHash (cache.sourceRoot ++ t.directory ++ s) := by
    intro s hs
    refine ⟨hobj s hs, ?_⟩
    rw [hhash s hs, hcache]
    exact cacheAfter_fileHash_mem fs1 _ t.files cache s hs
  have hempty : t.files.isEmpty = false := by
    cases hf : t.files with
    | nil => exact absurd hf hne
    | cons a l => rfl
  have hloop := doRunLoop_all_fresh compiler fs2 t.compilerOptions
    (cache.sourceRoot ++ t.directory) t.files (doRun compiler fs1 t cache).cache [] false []
    hfresh
  generalize (doRun compiler fs1 t cache).cache = c1 at hroot hloop ⊢
  unfold doRun
  simp [hempty, hroot, hloop]

/-- Witness of C2: `hello` is built, its object appears, and the second run
requests nothing. -/
theorem doRun_twice_requests_nothing_witness :
    (doRun (Gcc.compiler sampleIdentifyLanguage) sourcesOnly helloTarget sampleCache).error = none
      ∧ (doRun (Gcc.compiler sampleIdentifyLanguage) sourcesAndObjects helloTarget
          (doRun (Gcc.compiler sampleIdentifyLanguage) sourcesOnly helloTarget
            sampleCache).cache).requests = [] :=
  ⟨by decide,
    (doRun_twice_requests_nothing (Gcc.compiler sampleIdentifyLanguage) sourcesOnly
      sourcesAndObjects helloTarget sampleCache (by decide) (by decide) (by decide)).1⟩

/-! ### Reading the cache file back -/

/-! ### The lexer -/

theorem lexRun_append (a b : List Char) :
    ∀ st : LexState, lexRun st (a ++ b) =
      (match lexRun st a with
       | some st1 => lexRun st1 b
       | none => none) := by
  induction a with
  | nil => intro st; rfl
  | cons c a ih =>
    intro st
    simp only [List.cons_append, lexRun]
    cases lexStep st c with
    | none => rfl
    | some st1 => exact ih st1

theorem lexDefault_shift (toks t0 : List Token) (c : Char) :
    lexDefault (toks ++ t0) c = (lexDefault t0 c).map (LexState.shift toks) := by
  unfold lexDefault
  split_ifs <;> simp [LexState.shift]

theorem lexStep_shift (toks : List Token) (st : LexState) (c : Char) :
    lexStep (LexState.shift toks st) c = (lexStep st c).map (LexState.shift toks) := by
  obtain ⟨mode, t0⟩ := st
  cases mode with
  | default => simp [lexStep, LexState.shift, lexDefault_shift]
  | inName acc =>
    simp only [lexStep, LexState.shift]
    split_ifs
    · simp [LexState.shift]
    · rw [List.append_assoc, lexDefault_shift]
  | inString acc =>
    simp only [lexStep, LexState.shift]
    split_ifs <;> simp [LexState.shift]
  | inEscape acc =>
    simp only [lexStep, LexState.shift]
    cases unescapeChar c <;> simp [LexState.shift]

theorem lexRun_shift (toks : List Token) (cs : List Char) :
    ∀ st : LexState,
      lexRun (LexState.shift toks st) cs = (lexRun st cs).map (LexState.shift toks) := by
  induction cs with
  | nil => intro st; rfl
  | cons c cs ih =>
    intro st
    simp only [lexRun, lexStep_shift]
    cases lexStep st c with
    | none => rfl
    | some st1 => exact ih st1

/-- A run from no tokens, replayed after the tokens `toks`. -/
theorem lexRun_of_nil (mode mode1 : LexMode) (toks t1 : List Token) (cs : List Char)
    (h : lexRun ⟨mode, []⟩ cs = some ⟨mode1, t1⟩) :
    lexRun ⟨mode, toks⟩ cs = some ⟨mode1, toks ++ t1⟩ := by
  have h2 := lexRun_shift toks cs ⟨mode, []⟩
  simp only [LexState.shift, List.append_nil] at h2
  rw [h2, h]
  rfl

/-- An escaped string inside a literal is read back as the string, when it
holds no line break. -/
theorem lexRun_escapeChars (toks : List Token) (s : List Char)
    (hs : ∀ c ∈ s, c ≠ '\n' ∧ c ≠ '\r') :
    ∀ acc : List Char,
      lexRun ⟨LexMode.inString acc, toks⟩ (escapeChars s)
        = some ⟨LexMode.inString (acc ++ s), toks⟩ := by
  induction s with
  | nil => intro acc; simp [escapeChars, lexRun]
  | cons c s ih =>
    intro acc
    have hc := hs c (List.mem_cons_self _ _)
    have hs2 : ∀ d ∈ s, d ≠ '\n' ∧ d ≠ '\r' := fun d hd => hs d (List.mem_cons_of_mem _ hd)
    unfold escapeChars
    by_cases h1 : c = '\\'
    · subst h1
      simp [lexRun, lexStep, unescapeChar, ih hs2]
    · by_cases h2 : c = '"'
      · subst h2
        simp [lexRun, lexStep, unescapeChar, ih hs2]
      · simp [lexRun, lexStep, h1, h2, hc.1, hc.2, ih hs2]

/-- A string with no quote, backslash or line break inside a literal is read
back as it stands. -/
theorem lexRun_verbatim (toks : List Token) (s : List Char)
    (hs : ∀ c ∈ s, c ≠ '\n' ∧ c ≠ '\r' ∧ c ≠ '"' ∧ c ≠ '\\') :
    ∀ acc : List Char,
      lexRun ⟨LexMode.inString acc, toks⟩ s = some ⟨LexMode.inString (acc ++ s), toks⟩ := by
  induction s with
  | nil => intro acc; simp [lexRun]
  | cons c s ih =>
    intro acc
    obtain ⟨h1, h2, h3, h4⟩ := hs c (List.mem_cons_self _ _)
    have hs2 : ∀ d ∈ s, d ≠ '\n' ∧ d ≠ '\r' ∧ d ≠ '"' ∧ d ≠ '\\' :=
      fun d hd => hs d (List.mem_cons_of_mem _ hd)
    simp [lexRun, lexStep, h1, h2, h3, h4, ih hs2]

theorem lexRun_nameChars (toks : List Token) (s : List Char)
    (hs : ∀ c ∈ s, isNameChar c = true) :
    ∀ acc : List Char,
      lexRun ⟨LexMode.inName acc, toks⟩ s = some ⟨LexMode.inName (acc ++ s), toks⟩ := by
  induction s with
  | nil => intro acc; simp [lexRun]
  | cons c s ih =>
    intro acc
    have hc := hs c (List.mem_cons_self _ _)
    have hs2 : ∀ d ∈ s, isNameChar d = true := fun d hd => hs d (List.mem_cons_of_mem _ hd)
    simp [lexRun, lexStep, hc, ih hs2]

theorem LexTo.const {file : String} {mode : LexMode} {toks : List Token}
    (h : LexTo file mode toks) (K : String) (mode1 : LexMode) (t1 : List Token)
    (hK : lexRun ⟨mode, []⟩ K.data = some ⟨mode1, t1⟩) :
    LexTo (file ++ K) mode1 (toks ++ t1) := by
  unfold LexTo at h ⊢
  rw [String.data_append, lexRun_append, h]
  exact lexRun_of_nil _ _ _ _ _ hK

theorem LexTo.escaped {file : String} {acc : List Char} {toks : List Token}
    (h : LexTo file (LexMode.inString acc) toks) (s : String)
    (hs : ∀ c ∈ s.data, c ≠ '\n' ∧ c ≠ '\r') :
    LexTo (file ++ escape s) (LexMode.inString (acc ++ s.data)) toks := by
  unfold LexTo at h ⊢
  rw [String.data_append, lexRun_append, h]
  exact lexRun_escapeChars toks s.data hs acc

theorem LexTo.verbatim {file : String} {acc : List Char} {toks : List Token}
    (h : LexTo file (LexMode.inString acc) toks) (s : String)
    (hs : ∀ c ∈ s.data, c ≠ '\n' ∧ c ≠ '\r' ∧ c ≠ '"' ∧ c ≠ '\\') :
    LexTo (file ++ s) (LexMode.inString (acc ++ s.data)) toks := by
  unfold LexTo at h ⊢
  rw [String.data_append, lexRun_append, h]
  exact lexRun_verbatim toks s.data hs acc

/-- A text that starts with the closing quote of the literal being read. -/
theorem LexTo.close {file : String} {acc : List Char} {toks : List Token}
    (h : LexTo file (LexMode.inString acc) toks) (K : String) (K1 : List Char)
    (mode1 : LexMode) (t1 : List Token) (hK : K.data = '"' :: K1)
    (hK1 : lexRun ⟨LexMode.default, []⟩ K1 = some ⟨mode1, t1⟩) :
    LexTo (file ++ K) mode1 (toks ++ Token.str (String.mk acc) :: t1) := by
  unfold LexTo at h ⊢
  rw [String.data_append, lexRun_append, h, hK]
  simp only [lexRun, lexStep, if_true]
  have := lexRun_of_nil LexMode.default mode1 (toks ++ [Token.str (String.mk acc)]) t1 K1 hK1
  simpa using this


theorem isNameStart_not_special (c : Char) (h : isNameStart c = true) :
    isBlank c = false ∧ c ≠ '\x7b' ∧ c ≠ '\x7d' ∧ c ≠ '=' ∧ c ≠ ',' ∧ c ≠ '"' := by
  refine ⟨?_, ?_, ?_, ?_, ?_, ?_⟩
  · cases hb : isBlank c with
    | false => rfl
    | true =>
      simp only [isBlank, Bool.or_eq_true, decide_eq_true_eq] at hb
      rcases hb with ((hb | hb) | hb) | hb <;> subst hb <;> revert h <;> decide
  all_goals (intro hc; subst hc; revert h; decide)

theorem LexTo.name {file : String} {toks : List Token}
    (h : LexTo file LexMode.default toks) (s : String) (c : Char) (cs : List Char)
    (hs : s.data = c :: cs) (hc : isNameStart c = true) (hcs : ∀ d ∈ cs, isNameChar d = true) :
    LexTo (file ++ s) (LexMode.inName s.data) toks := by
  unfold LexTo at h ⊢
  obtain ⟨h1, h2, h3, h4, h5, h6⟩ := isNameStart_not_special c hc
  rw [String.data_append, lexRun_append, h, hs]
  simp only [lexRun, lexStep, lexDefault, h1, h2, h3, h4, h5, h6, hc, if_false, if_true,
    Bool.false_eq_true]
  exact lexRun_nameChars toks cs hcs [c]

/-- A text that starts with a character that ends the name being read. -/
theorem LexTo.endName {file : String} {acc : List Char} {toks : List Token}
    (h : LexTo file (LexMode.inName acc) toks) (K : String) (c : Char) (K1 : List Char)
    (mode1 : LexMode) (t1 : List Token) (hK : K.data = c :: K1) (hc : isNameChar c = false)
    (hK1 : lexRun ⟨LexMode.default, []⟩ (c :: K1) = some ⟨mode1, t1⟩) :
    LexTo (file ++ K) mode1 (toks ++ Token.name (String.mk acc) :: t1) := by
  unfold LexTo at h ⊢
  rw [String.data_append, lexRun_append, h, hK]
  have h2 := lexRun_of_nil LexMode.default mode1 (toks ++ [Token.name (String.mk acc)]) t1
    (c :: K1) hK1
  simp only [lexRun, lexStep, hc, Bool.false_eq_true, if_false] at h2 ⊢
  simpa using h2

theorem isPlain_noBreak (s : String) (h : isPlain s = true) :
    ∀ c ∈ s.data, c ≠ '\n' ∧ c ≠ '\r' := by
  intro c hc
  simp only [isPlain, List.all_eq_true, Bool.and_eq_true, bne_iff_ne, ne_eq] at h
  exact ⟨(h c hc).1.1, (h c hc).1.2⟩

theorem isVerbatim_noSpecial (s : String) (h : isVerbatim s = true) :
    ∀ c ∈ s.data, c ≠ '\n' ∧ c ≠ '\r' ∧ c ≠ '"' ∧ c ≠ '\\' := by
  intro c hc
  simp only [isVerbatim, List.all_eq_true, Bool.and_eq_true, bne_iff_ne, ne_eq] at h
  exact ⟨(h c hc).1.1.1.1, (h c hc).1.1.1.2, (h c hc).1.2, (h c hc).2⟩

theorem saveUserOptions_lex (m : StringMap)
    (hm : ∀ p ∈ m, isPlain p.1 = true ∧ isPlain p.2 = true) :
    ∀ (file : String) (toks : List Token), LexTo file LexMode.default toks →
      LexTo (saveUserOptions file m) LexMode.default
        (toks ++ ((m.filter (fun p => !p.1.isEmpty)).map optionCall).flatMap
          (Call.tokens false)) := by
  induction m with
  | nil => intro file toks h; simpa [saveUserOptions] using h
  | cons p m ih =>
    intro file toks h
    have hp := hm p (List.mem_cons_self _ _)
    have hm2 := fun q hq => hm q (List.mem_cons_of_mem _ hq)
    unfold saveUserOptions
    simp only [List.foldl_cons]
    by_cases he : p.1.isEmpty = true
    · simp only [he, if_true, List.filter_cons, Bool.not_true, Bool.false_eq_true, if_false]
      exact ih hm2 file toks h
    · have h1 := h.const "UserOption \x7b\n" LexMode.default
        [Token.name "UserOption", Token.lbrace] (by decide)
      have h2 := h1.const "    name = \"" (LexMode.inString [])
        [Token.name "name", Token.assign] (by decide)
      have h3 := h2.escaped p.1 (isPlain_noBreak _ hp.1)
      have h4 := h3.close "\",\n" _ LexMode.default [Token.comma] rfl (by decide)
      have h5 := h4.const "    value = \"" (LexMode.inString [])
        [Token.name "value", Token.assign] (by decide)
      have h6 := h5.escaped p.2 (isPlain_noBreak _ hp.2)
      have h7 := h6.close "\"\n" _ LexMode.default [] rfl (by decide)
      have h8 := h7.const "\x7d\n\n" LexMode.default [Token.rbrace] (by decide)
      have h9 := ih hm2 _ _ h8
      simp only [Bool.not_eq_true] at he
      simpa [saveUserOptions, he, optionCall, Call.tokens, fieldsSep, Field.tokens] using h9

theorem saveTargetHashes_lex (m : StringMap)
    (hm : ∀ p ∈ m, isPlain p.1 = true ∧ isPlain p.2 = true) :
    ∀ (file : String) (toks : List Token), LexTo file LexMode.default toks →
      LexTo (saveTargetHashes file m) LexMode.default
        (toks ++ (m.map targetHashCall).flatMap (Call.tokens false)) := by
  induction m with
  | nil => intro file toks h; simpa [saveTargetHashes] using h
  | cons p m ih =>
    intro file toks h
    have hp := hm p (List.mem_cons_self _ _)
    have hm2 := fun q hq => hm q (List.mem_cons_of_mem _ hq)
    have h1 := h.const "TargetHash \x7b\n" LexMode.default
      [Token.name "TargetHash", Token.lbrace] (by decide)
    have h2 := h1.const "    target = \"" (LexMode.inString [])
      [Token.name "target", Token.assign] (by decide)
    have h3 := h2.escaped p.1 (isPlain_noBreak _ hp.1)
    have h4 := h3.close "\",\n" _ LexMode.default [Token.comma] rfl (by decide)
    have h5 := h4.const "    hash = \"" (LexMode.inString [])
      [Token.name "hash", Token.assign] (by decide)
    have h6 := h5.escaped p.2 (isPlain_noBreak _ hp.2)
    have h7 := h6.close "\"\n" _ LexMode.default [] rfl (by decide)
    have h8 := h7.const "\x7d\n\n" LexMode.default [Token.rbrace] (by decide)
    have h9 := ih hm2 _ _ h8
    simpa [saveTargetHashes, targetHashCall, Call.tokens, fieldsSep, Field.tokens] using h9

theorem saveConfig_lex (c : MeiqueCache) (hc : isVerbatim c.compilerId = true)
    (hs : isVerbatim c.sourceDir = true) (hp : isVerbatim c.installPrefix = true)
    (file : String) (toks : List Token) (h : LexTo file LexMode.default toks) :
    LexTo (saveConfig file c) LexMode.default (toks ++ Call.tokens true (configCall c)) := by
  have h1 := h.const "Config \x7b\n" LexMode.default [Token.name "Config", Token.lbrace]
    (by decide)
  have h2 := h1.const "    buildType = \"" (LexMode.inString [])
    [Token.name "buildType", Token.assign] (by decide)
  have h3 := h2.verbatim (if c.buildType = BuildType.Debug then "debug" else "release")
    (by split_ifs <;> decide)
  have h4 := h3.close "\",\n" _ LexMode.default [Token.comma] rfl (by decide)
  have h5 := h4.const "    compiler = \"" (LexMode.inString [])
    [Token.name "compiler", Token.assign] (by decide)
  have h6 := h5.verbatim c.compilerId (isVerbatim_noSpecial _ hc)
  have h7 := h6.close "\",\n" _ LexMode.default [Token.comma] rfl (by decide)
  have h8 := h7.const "    sourceDir = \"" (LexMode.inString [])
    [Token.name "sourceDir", Token.assign] (by decide)
  have h9 := h8.verbatim c.sourceDir (isVerbatim_noSpecial _ hs)
  have h10 := h9.close "\",\n" _ LexMode.default [Token.comma] rfl (by decide)
  by_cases he : c.installPrefix.isEmpty = true
  · have h11 := h10.const "\x7d\n\n" LexMode.default [Token.rbrace] (by decide)
    simpa [saveConfig, he, configCall, Call.tokens, Field.tokens] using h11
  · have h11 := h10.const "    installPrefix = \"" (LexMode.inString [])
      [Token.name "installPrefix", Token.assign] (by decide)
    have h12 := h11.verbatim c.installPrefix (isVerbatim_noSpecial _ hp)
    have h13 := h12.close "\",\n" _ LexMode.default [Token.comma] rfl (by decide)
    have h14 := h13.const "\x7d\n\n" LexMode.default [Token.rbrace] (by decide)
    simp only [Bool.not_eq_true] at he
    simpa [saveConfig, he, configCall, Call.tokens, Field.tokens] using h14

theorem saveScopes_loop_lex (scopes : StringList) (hs : ∀ s ∈ scopes, isVerbatim s = true) :
    ∀ (file : String) (toks : List Token), LexTo file LexMode.default toks →
      LexTo (scopes.foldl (fun file scope => file ++ "    \"" ++ scope ++ "\",\n") file)
        LexMode.default
        (toks ++ (scopes.map (fun s => (⟨none, s⟩ : Field))).flatMap
          (fun f => f.tokens ++ [Token.comma])) := by
  induction scopes with
  | nil => intro file toks h; simpa using h
  | cons s scopes ih =>
    intro file toks h
    have h1 := h.const "    \"" (LexMode.inString []) [] (by decide)
    have h2 := h1.verbatim s (isVerbatim_noSpecial _ (hs s (List.mem_cons_self _ _)))
    have h3 := h2.close "\",\n" _ LexMode.default [Token.comma] rfl (by decide)
    have h4 := ih (fun q hq => hs q (List.mem_cons_of_mem _ hq)) _ _ h3
    simpa [Field.tokens] using h4

theorem saveScopes_lex (scopes : StringList) (hs : ∀ s ∈ scopes, isVerbatim s = true)
    (file : String) (toks : List Token) (h : LexTo file LexMode.default toks) :
    LexTo (saveScopes file scopes) LexMode.default
      (toks ++ Call.tokens true (scopesCall scopes)) := by
  have h1 := h.const "Scopes \x7b\n" LexMode.default [Token.name "Scopes", Token.lbrace]
    (by decide)
  have h2 := saveScopes_loop_lex scopes hs _ _ h1
  have h3 := h2.const "\x7d\n\n" LexMode.default [Token.rbrace] (by decide)
  simpa [saveScopes, scopesCall, Call.tokens] using h3

theorem isLuaName_shape (s : String) (h : isLuaName s = true) :
    ∃ c cs, s.data = c :: cs ∧ isNameStart c = true ∧ (∀ d ∈ cs, isNameChar d = true) := by
  unfold isLuaName at h
  cases hd : s.data with
  | nil => simp [hd] at h
  | cons c cs =>
    simp only [hd, Bool.and_eq_true, List.all_eq_true, decide_eq_true_eq] at h
    exact ⟨c, cs, rfl, h.1.1, h.1.2⟩

theorem savePackage_attrs_lex (attrs : StringMap)
    (ha : ∀ a ∈ attrs, isLuaName a.1 = true ∧ isPlain a.2 = true) :
    ∀ (file : String) (toks : List Token), LexTo file LexMode.default toks →
      LexTo (attrs.foldl
          (fun file p => file ++ "    " ++ p.1 ++ " = \"" ++ escape p.2 ++ "\",\n") file)
        LexMode.default
        (toks ++ (attrs.map (fun a => (⟨some a.1, a.2⟩ : Field))).flatMap
          (fun f => f.tokens ++ [Token.comma])) := by
  induction attrs with
  | nil => intro file toks h; simpa using h
  | cons a attrs ih =>
    intro file toks h
    obtain ⟨hk, hv⟩ := ha a (List.mem_cons_self _ _)
    obtain ⟨c, cs, hd, hc, hcs⟩ := isLuaName_shape _ hk
    have h1 := h.const "    " LexMode.default [] (by decide)
    have h2 := h1.name a.1 c cs hd hc hcs
    have h3 := h2.endName " = \"" ' ' _ (LexMode.inString []) [Token.assign] rfl (by decide)
      (by decide)
    have h4 := h3.escaped a.2 (isPlain_noBreak _ hv)
    have h5 := h4.close "\",\n" _ LexMode.default [Token.comma] rfl (by decide)
    have h6 := ih (fun q hq => ha q (List.mem_cons_of_mem _ hq)) _ _ h5
    simpa [Field.tokens] using h6

theorem savePackages_lex (packages : SMap StringMap)
    (hp : ∀ p ∈ packages, isPlain p.1 = true
      ∧ ∀ a ∈ p.2, isLuaName a.1 = true ∧ isPlain a.2 = true) :
    ∀ (file : String) (toks : List Token), LexTo file LexMode.default toks →
      LexTo (savePackages file packages) LexMode.default
        (toks ++ (packages.map packageCall).flatMap (Call.tokens true)) := by
  induction packages with
  | nil => intro file toks h; simpa [savePackages] using h
  | cons p packages ih =>
    intro file toks h
    obtain ⟨hn, ha⟩ := hp p (List.mem_cons_self _ _)
    have h1 := h.const "Package \x7b\n" LexMode.default [Token.name "Package", Token.lbrace]
      (by decide)
    have h2 := h1.const "    name = \"" (LexMode.inString []) [Token.name "name", Token.assign]
      (by decide)
    have h3 := h2.escaped p.1 (isPlain_noBreak _ hn)
    have h4 := h3.close "\",\n" _ LexMode.default [Token.comma] rfl (by decide)
    have h5 := savePackage_attrs_lex p.2 ha _ _ h4
    have h6 := h5.const "\x7d\n\n" LexMode.default [Token.rbrace] (by decide)
    have h7 := ih (fun q hq => hp q (List.mem_cons_of_mem _ hq)) _ _ h6
    simpa [savePackages, packageCall, Call.tokens, Field.tokens] using h7

/-- The conditions under which the file written for `c` is in the modelled
fragment of Lua and spells the members of `c`. -/
theorem saveCache_lex (c : MeiqueCache)
    (hu : ∀ p ∈ c.userOptions, isPlain p.1 = true ∧ isPlain p.2 = true)
    (hc : isVerbatim c.compilerId = true) (hs : isVerbatim c.sourceDir = true)
    (hi : isVerbatim c.installPrefix = true) (hsc : ∀ s ∈ c.scopes, isVerbatim s = true)
    (hp : ∀ p ∈ c.packages, isPlain p.1 = true
      ∧ ∀ a ∈ p.2, isLuaName a.1 = true ∧ isPlain a.2 = true)
    (ht : ∀ p ∈ c.targetHashes, isPlain p.1 = true ∧ isPlain p.2 = true) :
    lex (saveCache c) = some (savedTokens c) := by
  have h0 : LexTo "" LexMode.default [] := rfl
  have h1 := saveUserOptions_lex c.userOptions hu _ _ h0
  have h2 := saveConfig_lex c hc hs hi _ _ h1
  have h3 := saveScopes_lex c.scopes hsc _ _ h2
  have h4 := savePackages_lex c.packages hp _ _ h3
  have h5 := saveTargetHashes_lex c.targetHashes ht _ _ h4
  unfold LexTo at h5
  unfold lex saveCache
  simp only [h5, lexFinish, savedTokens]
  simp

/-! ### The parser -/

theorem parseRun_append (a b : List Token) :
    ∀ st : ParseState, parseRun st (a ++ b) =
      (match parseRun st a with
       | some st1 => parseRun st1 b
       | none => none) := by
  induction a with
  | nil => intro st; rfl
  | cons t a ih =>
    intro st
    simp only [List.cons_append, parseRun]
    cases parseStep st t with
    | none => rfl
    | some st1 => exact ih st1

/-- The fields of a table constructor, each followed by a comma, are read in
order. -/
theorem parseRun_fields (fn : String) (calls : List Call) (fields : List Field)
    (hk : ∀ f ∈ fields, ∀ k, f.key = some k → k ∉ luaKeywords) :
    ∀ fs0 : List Field,
      parseRun ⟨ParseMode.fieldStart fn fs0, calls⟩
          (fields.flatMap (fun f => f.tokens ++ [Token.comma]))
        = some ⟨ParseMode.fieldStart fn (fs0 ++ fields), calls⟩ := by
  induction fields with
  | nil => intro fs0; simp [parseRun]
  | cons f fields ih =>
    intro fs0
    have hf := hk f (List.mem_cons_self _ _)
    have ih2 := ih (fun g hg => hk g (List.mem_cons_of_mem _ hg)) (fs0 ++ [f])
    obtain ⟨key, value⟩ := f
    cases key with
    | none =>
      simp only [List.flatMap_cons, Field.tokens, List.cons_append, List.nil_append, parseRun,
        parseStep]
      simpa using ih2
    | some k =>
      have hk2 : k ∉ luaKeywords := hf k rfl
      simp only [List.flatMap_cons, Field.tokens, List.cons_append, List.nil_append, parseRun,
        parseStep, hk2, if_false]
      simpa using ih2

/-- A call written with a comma after every field is read as that call. -/
theorem parseRun_call (c : Call) (calls : List Call) (hc : c.callee ∉ luaKeywords)
    (hk : ∀ f ∈ c.fields, ∀ k, f.key = some k → k ∉ luaKeywords) :
    parseRun ⟨ParseMode.top, calls⟩ (Call.tokens true c)
      = some ⟨ParseMode.top, calls ++ [c]⟩ := by
  unfold Call.tokens
  simp only [if_true, parseRun, parseStep, hc, if_false]
  rw [parseRun_append, parseRun_fields c.callee calls c.fields hk []]
  simp [parseRun, parseStep]

/-- A call with two keyed fields and a comma between them is read as that
call. -/
theorem parseRun_call_two (fn k1 v1 k2 v2 : String) (calls : List Call)
    (hc : fn ∉ luaKeywords) (h1 : k1 ∉ luaKeywords) (h2 : k2 ∉ luaKeywords) :
    parseRun ⟨ParseMode.top, calls⟩
        (Call.tokens false ⟨fn, [⟨some k1, v1⟩, ⟨some k2, v2⟩]⟩)
      = some ⟨ParseMode.top, calls ++ [⟨fn, [⟨some k1, v1⟩, ⟨some k2, v2⟩]⟩]⟩ := by
  simp [Call.tokens, fieldsSep, Field.tokens, parseRun, parseStep, hc, h1, h2]

theorem parseRun_calls (b : Bool) (cs : List Call)
    (h : ∀ c ∈ cs, ∀ calls, parseRun ⟨ParseMode.top, calls⟩ (Call.tokens b c)
      = some ⟨ParseMode.top, calls ++ [c]⟩) :
    ∀ calls : List Call,
      parseRun ⟨ParseMode.top, calls⟩ (cs.flatMap (Call.tokens b))
        = some ⟨ParseMode.top, calls ++ cs⟩ := by
  induction cs with
  | nil => intro calls; simp [parseRun]
  | cons c cs ih =>
    intro calls
    rw [List.flatMap_cons, parseRun_append, h c (List.mem_cons_self _ _) calls]
    simp only
    rw [ih (fun d hd => h d (List.mem_cons_of_mem _ hd))]
    simp

theorem isLuaName_not_keyword (s : String) (h : isLuaName s = true) : s ∉ luaKeywords := by
  simp only [isLuaName, Bool.and_eq_true, decide_eq_true_eq] at h
  exact h.2

theorem savedTokens_parse (c : MeiqueCache)
    (hp : ∀ p ∈ c.packages, ∀ a ∈ p.2, isLuaName a.1 = true) :
    parseRun ⟨ParseMode.top, []⟩ (savedTokens c) = some ⟨ParseMode.top, savedCalls c⟩ := by
  unfold savedTokens savedCalls
  rw [parseRun_append, parseRun_append, parseRun_append]
  rw [parseRun_calls false _ (by
    intro d hd calls
    simp only [List.mem_map] at hd
    obtain ⟨p, _, rfl⟩ := hd
    exact parseRun_call_two _ _ _ _ _ calls (by decide) (by decide) (by decide))]
  simp only
  rw [parseRun_append, parseRun_call _ _ (by show "Config" ∉ luaKeywords; decide) (by
    intro f hf k hkey
    simp only [configCall, List.mem_append, List.mem_cons, List.mem_singleton] at hf
    rcases hf with (hf | hf | hf | hf) | hf
    · subst hf; simp only [Option.some.injEq] at hkey; subst hkey; decide
    · subst hf; simp only [Option.some.injEq] at hkey; subst hkey; decide
    · subst hf; simp only [Option.some.injEq] at hkey; subst hkey; decide
    · simp at hf
    · split_ifs at hf
      · simp at hf
      · simp only [List.mem_singleton] at hf
        subst hf; simp only [Option.some.injEq] at hkey; subst hkey; decide)]
  simp only
  rw [parseRun_call _ _ (by show "Scopes" ∉ luaKeywords; decide) (by
    intro f hf k hkey
    simp only [scopesCall, List.mem_map] at hf
    obtain ⟨s, _, rfl⟩ := hf
    simp at hkey)]
  simp only
  rw [parseRun_calls true _ (by
    intro d hd calls
    simp only [List.mem_map] at hd
    obtain ⟨p, hpm, rfl⟩ := hd
    refine parseRun_call _ calls (by show "Package" ∉ luaKeywords; decide) ?_
    intro f hf k hkey
    simp only [packageCall, List.mem_cons, List.mem_map] at hf
    rcases hf with hf | ⟨a, ha, hf⟩
    · subst hf; simp only [Option.some.injEq] at hkey; subst hkey; decide
    · subst hf; simp only [Option.some.injEq] at hkey; subst hkey
      exact isLuaName_not_keyword _ (hp p hpm a ha))]
  simp only
  rw [parseRun_calls false _ (by
    intro d hd calls
    simp only [List.mem_map] at hd
    obtain ⟨p, _, rfl⟩ := hd
    exact parseRun_call_two _ _ _ _ _ calls (by decide) (by decide) (by decide))]
  simp

/-- The file written for `c` is read as the statements `savedCalls c`. -/
theorem luaChunk_saveCache (c : MeiqueCache)
    (hu : ∀ p ∈ c.userOptions, isPlain p.1 = true ∧ isPlain p.2 = true)
    (hc : isVerbatim c.compilerId = true) (hs : isVerbatim c.sourceDir = true)
    (hi : isVerbatim c.installPrefix = true) (hsc : ∀ s ∈ c.scopes, isVerbatim s = true)
    (hp : ∀ p ∈ c.packages, isPlain p.1 = true
      ∧ ∀ a ∈ p.2, isLuaName a.1 = true ∧ isPlain a.2 = true)
    (ht : ∀ p ∈ c.targetHashes, isPlain p.1 = true ∧ isPlain p.2 = true) :
    luaChunk (saveCache c) = some (savedCalls c) := by
  unfold luaChunk
  rw [saveCache_lex c hu hc hs hi hsc hp ht]
  simp only
  rw [savedTokens_parse c (fun p hpm a ha => ((hp p hpm).2 a ha).1)]
  rfl

/-! ### The readers -/

theorem lua_tocpp_of_isPlain (s : String) (h : isPlain s = true) : lua_tocpp s = s := by
  unfold lua_tocpp
  have h2 : s.data.takeWhile (fun c => decide (c ≠ '\x00')) = s.data := by
    rw [List.takeWhile_eq_self_iff]
    intro c hc
    simp only [isPlain, List.all_eq_true, Bool.and_eq_true, bne_iff_ne, ne_eq] at h
    simpa using (h c hc).2
  rw [h2]

theorem isPlain_of_isVerbatim (s : String) (h : isVerbatim s = true) : isPlain s = true := by
  simp only [isPlain, isVerbatim, List.all_eq_true, Bool.and_eq_true, bne_iff_ne, ne_eq] at h ⊢
  intro c hc
  exact ⟨⟨(h c hc).1.1.1.1, (h c hc).1.1.1.2⟩, (h c hc).1.1.2⟩

theorem SMap.set_of_not_mem {α : Type} (m : SMap α) (k : String) (v : α)
    (h : k ∉ m.keys) : m.set k v = m ++ [(k, v)] := by
  induction m with
  | nil => rfl
  | cons e m ih =>
    obtain ⟨k1, v1⟩ := e
    simp only [SMap.keys, List.map_cons, List.mem_cons, not_or] at h
    have hne : ¬ k1 = k := fun h0 => h.1 h0.symm
    simp only [SMap.set, if_neg hne, List.cons_append]
    rw [ih h.2]

/-- Assigning entries with distinct new keys one after the other appends
them. -/
theorem SMap.foldl_set_eq_append {α : Type} (l : SMap α) :
    ∀ acc : SMap α, (acc.keys ++ l.keys).Nodup →
      l.foldl (fun m p => m.set p.1 p.2) acc = acc ++ l := by
  induction l with
  | nil => intro acc _; simp
  | cons e l ih =>
    intro acc h
    obtain ⟨k, v⟩ := e
    have hk : k ∉ acc.keys := by
      intro hmem
      simp only [SMap.keys, List.map_cons] at h
      have := List.nodup_append.mp h
      exact this.2.2 hmem (List.mem_cons_self _ _)
    simp only [List.foldl_cons]
    rw [SMap.set_of_not_mem acc k v hk, ih]
    · simp
    · simp only [SMap.keys, List.map_append, List.map_cons, List.map_nil, List.append_assoc,
        List.singleton_append] at h ⊢
      exact h

theorem MeiqueCache.runCalls_append (n : String → String) (a b : List Call) :
    ∀ self : MeiqueCache, MeiqueCache.runCalls n (a ++ b) self =
      (match MeiqueCache.runCalls n a self with
       | some (Except.ok self1) => MeiqueCache.runCalls n b self1
       | other => other) := by
  induction a with
  | nil => intro self; rfl
  | cons c a ih =>
    intro self
    simp only [List.cons_append, MeiqueCache.runCalls]
    cases h : MeiqueCache.runCall n c self with
    | none => rfl
    | some r =>
      cases r with
      | error e => rfl
      | ok self1 => exact ih self1

theorem runCalls_options (n : String → String) (l : StringMap)
    (hl : ∀ p ∈ l, isPlain p.1 = true ∧ isPlain p.2 = true) :
    ∀ self : MeiqueCache,
      MeiqueCache.runCalls n (l.map optionCall) self
        = some (Except.ok
            { self with userOptions := l.foldl (fun m p => m.set p.1 p.2) self.userOptions }) := by
  induction l with
  | nil => intro self; rfl
  | cons p l ih =>
    intro self
    obtain ⟨h1, h2⟩ := hl p (List.mem_cons_self _ _)
    have hrun : MeiqueCache.runCall n (optionCall p) self
        = some (Except.ok { self with userOptions := self.userOptions.set p.1 p.2 }) := by
      simp [MeiqueCache.runCall, optionCall, MeiqueCache.readOption, luaGetField,
        LuaTable.ofFields, SMap.set, SMap.find, lua_tocpp_of_isPlain _ h1,
        lua_tocpp_of_isPlain _ h2]
    simp only [List.map_cons, MeiqueCache.runCalls, hrun, List.foldl_cons]
    rw [ih (fun q hq => hl q (List.mem_cons_of_mem _ hq))]

theorem runCalls_targetHashes (n : String → String) (l : StringMap)
    (hl : ∀ p ∈ l, isPlain p.1 = true ∧ isPlain p.2 = true) :
    ∀ self : MeiqueCache,
      MeiqueCache.runCalls n (l.map targetHashCall) self
        = some (Except.ok
            { self with
              targetHashes := l.foldl (fun m p => m.set p.1 p.2) self.targetHashes }) := by
  induction l with
  | nil => intro self; rfl
  | cons p l ih =>
    intro self
    obtain ⟨h1, h2⟩ := hl p (List.mem_cons_self _ _)
    have hrun : MeiqueCache.runCall n (targetHashCall p) self
        = some (Except.ok { self with targetHashes := self.targetHashes.set p.1 p.2 }) := by
      simp [MeiqueCache.runCall, targetHashCall, MeiqueCache.readTargetHash, luaGetField,
        LuaTable.ofFields, SMap.set, SMap.find, lua_tocpp_of_isPlain _ h1,
        lua_tocpp_of_isPlain _ h2]
    simp only [List.map_cons, MeiqueCache.runCalls, hrun, List.foldl_cons]
    rw [ih (fun q hq => hl q (List.mem_cons_of_mem _ hq))]

theorem runCall_config (n : String → String) (c self : MeiqueCache)
    (hc : isVerbatim c.compilerId = true) (hs : isVerbatim c.sourceDir = true)
    (hi : isVerbatim c.installPrefix = true) :
    MeiqueCache.runCall n (configCall c) self
      = some (Except.ok
          { self with
            sourceDir := n c.sourceDir, buildType := c.buildType, compilerId := c.compilerId,
            installPrefix := c.installPrefix }) := by
  have e1 := lua_tocpp_of_isPlain _ (isPlain_of_isVerbatim _ hc)
  have e2 := lua_tocpp_of_isPlain _ (isPlain_of_isVerbatim _ hs)
  have e3 := lua_tocpp_of_isPlain _ (isPlain_of_isVerbatim _ hi)
  have e4 : lua_tocpp "debug" = "debug" := by decide
  have e5 : lua_tocpp "release" = "release" := by decide
  have k1 : lua_tocpp "buildType" = "buildType" := by decide
  have k2 : lua_tocpp "compiler" = "compiler" := by decide
  have k3 : lua_tocpp "sourceDir" = "sourceDir" := by decide
  have k4 : lua_tocpp "installPrefix" = "installPrefix" := by decide
  by_cases he : c.installPrefix.isEmpty = true
  · have hempty : c.installPrefix = "" := by
      simpa [String.isEmpty_iff] using he
    cases hb : c.buildType <;>
      simp [MeiqueCache.runCall, configCall, MeiqueCache.readMeiqueConfig, readLuaTable,
        LuaTable.ofFields, SMap.set, SMap.find, he, hb, e1, e2, e3, e4, e5, k1, k2, k3, k4] <;>
      exact hempty.symm
  · simp only [Bool.not_eq_true] at he
    cases hb : c.buildType <;>
      simp [MeiqueCache.runCall, configCall, MeiqueCache.readMeiqueConfig, readLuaTable,
        LuaTable.ofFields, SMap.set, SMap.find, he, hb, e1, e2, e3, e4, e5, k1, k2, k3, k4]

theorem ofFields_positional (l : StringList) :
    ∀ t : LuaTable,
      (l.map (fun s => (⟨none, s⟩ : Field))).foldl
          (fun t f =>
            match f.key with
            | none => { t with array := t.array ++ [f.value] }
            | some k => { t with hash := t.hash.set k f.value }) t
        = ⟨t.array ++ l, t.hash⟩ := by
  induction l with
  | nil => intro t; simp
  | cons s l ih =>
    intro t
    simp only [List.map_cons, List.foldl_cons]
    rw [ih]
    simp

theorem ofFields_keyed (l : StringMap) :
    ∀ t : LuaTable,
      (l.map (fun a => (⟨some a.1, a.2⟩ : Field))).foldl
          (fun t f =>
            match f.key with
            | none => { t with array := t.array ++ [f.value] }
            | some k => { t with hash := t.hash.set k f.value }) t
        = ⟨t.array, l.foldl (fun m a => m.set a.1 a.2) t.hash⟩ := by
  induction l with
  | nil => intro t; simp
  | cons a l ih =>
    intro t
    simp only [List.map_cons, List.foldl_cons]
    rw [ih]

theorem runCall_scopes (n : String → String) (scopes : StringList) (self : MeiqueCache)
    (hs : ∀ s ∈ scopes, isVerbatim s = true) :
    MeiqueCache.runCall n (scopesCall scopes) self
      = some (Except.ok { self with scopes := self.scopes ++ scopes }) := by
  have hmap : scopes.map lua_tocpp = scopes := by
    rw [List.map_congr_left (g := id)]
    · simp
    · intro s hmem
      exact lua_tocpp_of_isPlain _ (isPlain_of_isVerbatim _ (hs s hmem))
  have htab : LuaTable.ofFields (scopesCall scopes).fields = ⟨scopes, []⟩ := by
    have := ofFields_positional scopes ⟨[], []⟩
    simpa [LuaTable.ofFields, scopesCall] using this
  have hlist : readLuaList ⟨scopes, []⟩ self.scopes = some (self.scopes ++ scopes) := by
    have := foldl_push_back_map lua_tocpp scopes self.scopes
    simp only [readLuaList, if_true, this, hmap]
  have hne : (scopesCall scopes).callee = "Scopes" := rfl
  simp only [MeiqueCache.runCall, htab, hne, MeiqueCache.readScopes, hlist]
  simp

theorem SMap.mem_set {α : Type} (m : SMap α) (k : String) (v : α) (x : String × α)
    (h : x ∈ m.set k v) : x = (k, v) ∨ x ∈ m := by
  induction m with
  | nil => simp only [SMap.set, List.mem_singleton] at h; exact Or.inl h
  | cons e m ih =>
    obtain ⟨k1, v1⟩ := e
    by_cases hk : k1 = k
    · simp only [SMap.set, if_pos hk, List.mem_cons] at h
      rcases h with h | h
      · exact Or.inl h
      · exact Or.inr (List.mem_cons_of_mem _ h)
    · simp only [SMap.set, if_neg hk, List.mem_cons] at h
      rcases h with h | h
      · exact Or.inr (h ▸ List.mem_cons_self _ _)
      · rcases ih h with h2 | h2
        · exact Or.inl h2
        · exact Or.inr (List.mem_cons_of_mem _ h2)

theorem SMap.mem_foldl_set (l : StringMap) :
    ∀ (acc : StringMap) (x : String × String),
      x ∈ l.foldl (fun m a => m.set a.1 a.2) acc → x ∈ l ∨ x ∈ acc := by
  induction l with
  | nil => intro acc x h; exact Or.inr h
  | cons a l ih =>
    intro acc x h
    simp only [List.foldl_cons] at h
    rcases ih _ x h with h2 | h2
    · exact Or.inl (List.mem_cons_of_mem _ h2)
    · rcases SMap.mem_set acc a.1 a.2 x h2 with h3 | h3
      · exact Or.inl (h3 ▸ List.mem_cons_self _ _)
      · exact Or.inr h3

theorem SMap.find_some_mem {α : Type} (m : SMap α) (k : String) (v : α)
    (h : m.find k = some v) : (k, v) ∈ m := by
  induction m with
  | nil => simp [SMap.find] at h
  | cons e m ih =>
    obtain ⟨k1, v1⟩ := e
    by_cases hk : k1 = k
    · simp only [SMap.find, if_pos hk, Option.some.injEq] at h
      subst hk; subst h
      exact List.mem_cons_self _ _
    · simp only [SMap.find, if_neg hk] at h
      exact List.mem_cons_of_mem _ (ih h)

/-- After a run of assignments, the key `k` holds a value with the property
`P` when every value assigned to `k` has it and `k` was assigned or held such
a value before. -/
theorem SMap.find_foldl_set (P : String → Prop) (g : String → String) (k : String)
    (l : StringMap) :
    ∀ acc : StringMap, (∀ a ∈ l, a.1 = k → P (g a.2)) →
      ((∃ v, acc.find k = some v ∧ P v) ∨ (∃ a ∈ l, a.1 = k)) →
      ∃ v, (l.foldl (fun m a => m.set a.1 (g a.2)) acc).find k = some v ∧ P v := by
  induction l with
  | nil =>
    intro acc _ h
    rcases h with h | ⟨a, ha, _⟩
    · exact h
    · simp at ha
  | cons a l ih =>
    intro acc hP h
    simp only [List.foldl_cons]
    apply ih
    · exact fun b hb => hP b (List.mem_cons_of_mem _ hb)
    · by_cases hk : a.1 = k
      · left
        refine ⟨g a.2, ?_, hP a (List.mem_cons_self _ _) hk⟩
        rw [hk]
        exact SMap.find_set_self _ _ _
      · rcases h with ⟨v, hv, hPv⟩ | ⟨b, hb, hbk⟩
        · left
          exact ⟨v, by rw [SMap.find_set_ne _ _ _ _ hk]; exact hv, hPv⟩
        · right
          rcases List.mem_cons.mp hb with hb2 | hb2
          · exact absurd (hb2 ▸ hbk) hk
          · exact ⟨b, hb2, hbk⟩

/-- A Lua name holds no NUL character: `lua_tocpp` returns it whole. -/
theorem lua_tocpp_of_isLuaName (s : String) (h : isLuaName s = true) : lua_tocpp s = s := by
  obtain ⟨c, cs, hd, hc, hcs⟩ := isLuaName_shape s h
  unfold lua_tocpp
  have h2 : s.data.takeWhile (fun c => decide (c ≠ '\x00')) = s.data := by
    rw [List.takeWhile_eq_self_iff]
    intro d hdm
    rw [hd] at hdm
    simp only [ne_eq, decide_not, Bool.not_eq_true', decide_eq_false_iff_not]
    intro h0
    subst h0
    rcases List.mem_cons.mp hdm with h1 | h1
    · subst h1
      revert hc
      decide
    · have := hcs _ h1
      revert this
      decide
  rw [h2]

/-- Where `g` leaves every key as it is, assigning under the converted keys is
assigning under the keys. -/
theorem SMap.foldl_set_keys (g h : String → String) (l : StringMap)
    (hk : ∀ a ∈ l, g a.1 = a.1) :
    ∀ acc : StringMap,
      l.foldl (fun m a => SMap.set m (g a.1) (h a.2)) acc
        = l.foldl (fun m a => SMap.set m a.1 (h a.2)) acc := by
  induction l with
  | nil => intro acc; rfl
  | cons a l ih =>
    intro acc
    simp only [List.foldl_cons, hk a (List.mem_cons_self _ _)]
    exact ih (fun b hb => hk b (List.mem_cons_of_mem _ hb)) _

theorem runCall_package (n : String → String) (p : String × StringMap) (self : MeiqueCache)
    (hne : p.1 ≠ "") (hn : isPlain p.1 = true)
    (hkey : ∀ a ∈ p.2, isLuaName a.1 = true)
    (ha : ∀ a ∈ p.2, isPlain a.2 = true ∧ (a.1 = "name" → a.2 ≠ "")) :
    ∃ pk, MeiqueCache.runCall n (packageCall p) self
      = some (Except.ok { self with packages := pk }) := by
  have htab : LuaTable.ofFields (packageCall p).fields
      = ⟨[], (("name", p.1) :: p.2).foldl (fun m a => m.set a.1 a.2) []⟩ := by
    have := ofFields_keyed (("name", p.1) :: p.2) ⟨[], []⟩
    simpa [LuaTable.ofFields, packageCall] using this
  have hgood : ∀ a ∈ (("name", p.1) :: p.2 : StringMap),
      isPlain a.2 = true ∧ (a.1 = "name" → a.2 ≠ "") := by
    intro a hmem
    rcases List.mem_cons.mp hmem with h | h
    · subst h; exact ⟨hn, fun _ => hne⟩
    · exact ha a h
  obtain ⟨v0, hv0, _⟩ := SMap.find_foldl_set (fun _ => True) id "name"
    (("name", p.1) :: p.2) [] (fun _ _ _ => trivial)
    (Or.inr ⟨("name", p.1), List.mem_cons_self _ _, rfl⟩)
  have hmem0 := SMap.find_some_mem _ _ _ hv0
  obtain ⟨v, hv, hvne⟩ := SMap.find_foldl_set (fun v => v ≠ "") lua_tocpp "name"
    ((("name", p.1) :: p.2).foldl (fun m a => m.set a.1 (id a.2)) []) []
    (by
      intro a hmem hk
      rcases SMap.mem_foldl_set _ _ _ hmem with h | h
      · rw [lua_tocpp_of_isPlain _ (hgood a h).1]
        exact (hgood a h).2 hk
      · simp at h)
    (Or.inr ⟨("name", v0), hmem0, rfl⟩)
  have hvne2 : v.isEmpty = false := by
    cases hb : v.isEmpty with
    | false => rfl
    | true => exact absurd ((String.isEmpty_iff v).mp hb) hvne
  have hcallee : (packageCall p).callee = "Package" := rfl
  simp only [id_eq] at hv
  have hkeys : ∀ a ∈ List.foldl (fun m a => SMap.set m a.1 a.2) [] (("name", p.1) :: p.2),
      lua_tocpp a.1 = a.1 := by
    intro a hmem
    rcases SMap.mem_foldl_set _ _ _ hmem with h | h
    · rcases List.mem_cons.mp h with h1 | h1
      · subst h1
        show lua_tocpp "name" = "name"
        decide
      · exact lua_tocpp_of_isLuaName _ (hkey a h1)
    · simp at h
  refine ⟨self.packages.set v
    (List.foldl (fun m a => SMap.set m a.1 (lua_tocpp a.2)) []
      (List.foldl (fun m a => SMap.set m a.1 a.2) [] (("name", p.1) :: p.2))), ?_⟩
  simp only [MeiqueCache.runCall, htab, hcallee, MeiqueCache.readPackage, readLuaTable, if_true,
    SMap.foldl_set_keys lua_tocpp lua_tocpp _ hkeys, hv, hvne2, MeiqueCache.setPackage]
  simp

theorem runCalls_packages (n : String → String) (packages : SMap StringMap)
    (hp : ∀ p ∈ packages, p.1 ≠ "" ∧ isPlain p.1 = true
      ∧ ∀ a ∈ p.2, isLuaName a.1 = true ∧ isPlain a.2 = true ∧ (a.1 = "name" → a.2 ≠ "")) :
    ∀ self : MeiqueCache,
      ∃ pk, MeiqueCache.runCalls n (packages.map packageCall) self
        = some (Except.ok { self with packages := pk }) := by
  induction packages with
  | nil => intro self; exact ⟨self.packages, rfl⟩
  | cons p packages ih =>
    intro self
    obtain ⟨h1, h2, h3⟩ := hp p (List.mem_cons_self _ _)
    obtain ⟨pk1, hpk1⟩ := runCall_package n p self h1 h2 (fun a ha => (h3 a ha).1)
      (fun a ha => (h3 a ha).2)
    obtain ⟨pk, hpk⟩ := ih (fun q hq => hp q (List.mem_cons_of_mem _ hq))
      { self with packages := pk1 }
    exact ⟨pk, by simp only [List.map_cons, MeiqueCache.runCalls, hpk1, hpk]⟩

theorem SMap.foldl_set_nil {α : Type} (l : SMap α) (h : (SMap.keys l).Nodup) :
    List.foldl (fun m p => SMap.set m p.1 p.2) [] l = l := by
  have := SMap.foldl_set_eq_append l [] (by simpa [SMap.keys] using h)
  simpa using this

/-- What `loadCache` makes of the file `saveCache` wrote for a writable cache
state, member by member. -/
theorem loadCache_saveCache_members (normalizeDirPath : String → String) (c : MeiqueCache)
    (buildType : BuildType) (h : Writable c) :
    ∃ pk, MeiqueCache.loadCache normalizeDirPath (saveCache c) (MeiqueCache.fresh buildType)
      = some (Except.ok
          { userOptions := c.userOptions.filter (fun p => !p.1.isEmpty),
            buildType := c.buildType, compilerId := c.compilerId,
            sourceDir := normalizeDirPath c.sourceDir, installPrefix := c.installPrefix,
            scopes := c.scopes, packages := pk, targetHashes := c.targetHashes,
            fileHashes := [], autoSave := true }) := by
  obtain ⟨⟨hu1, hu2⟩, ⟨hc, hs, hi⟩, hsc, hp, ht1, ht2⟩ := h
  have hchunk := luaChunk_saveCache c hu2 hc hs hi hsc
    (fun p hpm => ⟨(hp p hpm).2.1, fun a ha => ⟨((hp p hpm).2.2 a ha).1, ((hp p hpm).2.2 a ha).2.1⟩⟩)
    ht2
  have hfilt : ∀ p ∈ c.userOptions.filter (fun p => !p.1.isEmpty),
      isPlain p.1 = true ∧ isPlain p.2 = true :=
    fun p hpm => hu2 p (List.mem_of_mem_filter hpm)
  have hnodup : (SMap.keys (c.userOptions.filter (fun p => !p.1.isEmpty))).Nodup :=
    List.Nodup.sublist (List.Sublist.map _ (List.filter_sublist _)) hu1
  obtain ⟨pk, hpk⟩ := runCalls_packages normalizeDirPath c.packages hp
    { userOptions := c.userOptions.filter (fun p => !p.1.isEmpty),
      buildType := c.buildType, compilerId := c.compilerId,
      sourceDir := normalizeDirPath c.sourceDir, installPrefix := c.installPrefix,
      scopes := c.scopes, packages := [], targetHashes := [],
      fileHashes := [], autoSave := true }
  refine ⟨pk, ?_⟩
  unfold MeiqueCache.loadCache
  rw [hchunk]
  simp only [savedCalls]
  rw [MeiqueCache.runCalls_append, MeiqueCache.runCalls_append, MeiqueCache.runCalls_append,
    runCalls_options normalizeDirPath _ hfilt]
  simp only [MeiqueCache.runCalls, MeiqueCache.fresh, SMap.foldl_set_nil _ hnodup,
    runCall_config normalizeDirPath c _ hc hs hi, runCall_scopes normalizeDirPath c.scopes _ hsc,
    List.nil_append, hpk, runCalls_targetHashes normalizeDirPath _ ht2,
    SMap.foldl_set_nil _ ht1]

/-! ### Saving, loading and rebuilding -/

/-- C4, as stated, fails: a user option under the empty name is not written,
so the cache read back has no such option. -/
theorem loadCache_saveCache_counterexample :
    MeiqueCache.loadCache sampleNormalizeDirPath (saveCache optionCache)
        (MeiqueCache.fresh BuildType.Release)
      = some (Except.ok { sampleCache with userOptions := [("docs", "yes")] })
    ∧ SMap.find optionCache.userOptions "" = some "on"
    ∧ SMap.find ({ sampleCache with userOptions := [("docs", "yes")] } : MeiqueCache).userOptions ""
      = none := by
  decide

/-- C4, amended: for every writable cache state, `saveCache` followed by
`loadCache` into a freshly constructed cache succeeds and yields a cache with
the user options of the original other than the one under the empty name, the
same build type, compiler id, install prefix, scopes and target hashes, and
the source directory passed through `OS::normalizeDirPath`. -/
theorem loadCache_saveCache (normalizeDirPath : String → String) (c : MeiqueCache)
    (buildType : BuildType) (h : Writable c) :
    ∃ loaded, MeiqueCache.loadCache normalizeDirPath (saveCache c) (MeiqueCache.fresh buildType)
        = some (Except.ok loaded)
      ∧ loaded.userOptions = c.userOptions.filter (fun p => !p.1.isEmpty)
      ∧ loaded.buildType = c.buildType
      ∧ loaded.compilerId = c.compilerId
      ∧ loaded.sourceDir = normalizeDirPath c.sourceDir
      ∧ loaded.installPrefix = c.installPrefix
      ∧ loaded.scopes = c.scopes
      ∧ loaded.targetHashes = c.targetHashes := by
  obtain ⟨pk, hpk⟩ := loadCache_saveCache_members normalizeDirPath c buildType h
  exact ⟨_, hpk, rfl, rfl, rfl, rfl, rfl, rfl, rfl⟩

/-- Witness of the amended C4: a cache with every member set, among them a
user option with double quotes and one with a backslash, is writable and is
read back. -/
theorem loadCache_saveCache_witness :
    Writable fullCache
      ∧ ∃ loaded, MeiqueCache.loadCache sampleNormalizeDirPath (saveCache fullCache)
            (MeiqueCache.fresh BuildType.Release)
          = some (Except.ok loaded)
        ∧ loaded.userOptions = fullCache.userOptions.filter (fun p => !p.1.isEmpty)
        ∧ loaded.buildType = fullCache.buildType
        ∧ loaded.compilerId = fullCache.compilerId
        ∧ loaded.sourceDir = sampleNormalizeDirPath fullCache.sourceDir
        ∧ loaded.installPrefix = fullCache.installPrefix
        ∧ loaded.scopes = fullCache.scopes
        ∧ loaded.targetHashes = fullCache.targetHashes :=
  ⟨by unfold Writable; decide,
    loadCache_saveCache sampleNormalizeDirPath fullCache BuildType.Release
      (by unfold Writable; decide)⟩

set_option maxRecDepth 100000 in
/-- C5 fails on the code: `readPackage` stores the whole table of a `Package`
record, its `name` field included, as the attributes of the package, so the
second `saveCache` writes the `name` line twice. -/
theorem saveCache_loadCache_saveCache_differs :
    saveCache packageCache
      = "Config \x7b\n    buildType = \"release\",\n    compiler = \"gcc\",\n"
        ++ "    sourceDir = \"/src/\",\n\x7d\n\nScopes \x7b\n\x7d\n\n"
        ++ "Package \x7b\n    name = \"zlib\",\n    cflags = \"-I/z\",\n\x7d\n\n"
    ∧ MeiqueCache.loadCache sampleNormalizeDirPath (saveCache packageCache)
        (MeiqueCache.fresh BuildType.Release)
      = some (Except.ok
          { sampleCache with packages := [("zlib", [("name", "zlib"), ("cflags", "-I/z")])] })
    ∧ saveCache { sampleCache with packages := [("zlib", [("name", "zlib"), ("cflags", "-I/z")])] }
      = "Config \x7b\n    buildType = \"release\",\n    compiler = \"gcc\",\n"
        ++ "    sourceDir = \"/src/\",\n\x7d\n\nScopes \x7b\n\x7d\n\n"
        ++ "Package \x7b\n    name = \"zlib\",\n    name = \"zlib\",\n    cflags = \"-I/z\",\n\x7d\n\n"
    ∧ (saveCache
          { sampleCache with packages := [("zlib", [("name", "zlib"), ("cflags", "-I/z")])] }).length
      = (saveCache packageCache).length + 19 := by
  decide

/-! ### The link command for every link type -/

/-- C11, as stated, fails: for a static library the argument list holds none of
the custom flags, library paths and libraries of the options. -/
theorem gcc_link_static_drops_options_counterexample :
    Gcc.link "libfoo.a" ["a.o"]
        { linkType := LinkType.StaticLibrary, language := Language.CPlusPlusLanguage,
          customFlags := ["-O2"], libraryPath := ["/opt/lib"], libraries := ["m"],
          staticLibraries := [] }
      = Except.ok { command := "ar", args := ["-rcs", "libfoo.a", "a.o"] }
    ∧ "-O2" ∉ ["-rcs", "libfoo.a", "a.o"]
    ∧ "-L\"/opt/lib\"" ∉ ["-rcs", "libfoo.a", "a.o"]
    ∧ "-lm" ∉ ["-rcs", "libfoo.a", "a.o"] := by
  decide

/-- C11, amended: for every link type and every language C or C++, `Gcc::link`
yields a job whose program is `ar` for a static library and otherwise `g++`
(C++) or `gcc` (C); for a link type other than StaticLibrary the argument
list holds, after the objects and `-o <out>`, every custom flag, then
`-L"path"` for every library path, then `-l<lib>` for every library, each group
in its given order, and then the static-library inputs; for StaticLibrary it is
`-rcs`, the output and the objects. -/
theorem gcc_link_program_and_options (output : String) (objects : StringList)
    (o : LinkerOptions)
    (hLang : o.language = Language.CPlusPlusLanguage ∨ o.language = Language.CLanguage) :
    ∃ job, Gcc.link output objects o = Except.ok job
      ∧ job.command =
          (if o.linkType = LinkType.StaticLibrary then "ar"
           else if o.language = Language.CPlusPlusLanguage then "g++" else "gcc")
      ∧ (o.linkType ≠ LinkType.StaticLibrary →
          ∃ front, job.args = front ++ o.customFlags
            ++ o.libraryPath.map (fun p => "-L\"" ++ p ++ "\"")
            ++ o.libraries.map (fun l => "-l" ++ l)
            ++ o.staticLibraries)
      ∧ (o.linkType = LinkType.StaticLibrary → job.args = ["-rcs", output] ++ objects) := by
  unfold Gcc.link
  simp only [foldl_push_back_map, copyBack_eq]
  cases hT : o.linkType with
  | StaticLibrary => simp [push_front]
  | Executable =>
    rcases hLang with h | h
    · refine ⟨_, by simp [h]; rfl, by simp [h], fun _ => ⟨push_back (push_back objects "-o") output, ?_⟩, by simp⟩
      simp [push_back]
    · refine ⟨_, by simp [h]; rfl, by simp [h], fun _ => ⟨push_back (push_back objects "-o") output, ?_⟩, by simp⟩
      simp [push_back]
  | SharedLibrary =>
    rcases hLang with h | h
    · refine ⟨_, by simp [h]; rfl, by simp [h], fun _ =>
        ⟨push_back (push_back (push_front (push_front (push_front objects "-fpic") "-shared")
          ("-Wl,-soname=" ++ output)) "-o") output, ?_⟩, by simp⟩
      simp [push_back, push_front]
    · refine ⟨_, by simp [h]; rfl, by simp [h], fun _ =>
        ⟨push_back (push_back (push_front (push_front (push_front objects "-fpic") "-shared")
          ("-Wl,-soname=" ++ output)) "-o") output, ?_⟩, by simp⟩
      simp [push_back, push_front]

/-- Witness of the amended C11: a C++ executable with two flags, two library
paths and two libraries. -/
theorem gcc_link_program_and_options_witness :
    ∃ job, Gcc.link "prog" ["a.o"]
          { linkType := LinkType.Executable, language := Language.CPlusPlusLanguage,
            customFlags := ["-O2", "-s"], libraryPath := ["/a", "/b"], libraries := ["m", "z"],
            staticLibraries := [] }
        = Except.ok job
      ∧ job.command = "g++"
      ∧ job.args = ["a.o", "-o", "prog", "-O2", "-s", "-L\"/a\"", "-L\"/b\"", "-lm", "-lz"] := by
  obtain ⟨job, hjob, hcmd, _, _⟩ := gcc_link_program_and_options "prog" ["a.o"]
    { linkType := LinkType.Executable, language := Language.CPlusPlusLanguage,
      customFlags := ["-O2", "-s"], libraryPath := ["/a", "/b"], libraries := ["m", "z"],
      staticLibraries := [] } (Or.inl rfl)
  refine ⟨job, hjob, by simpa using hcmd, ?_⟩
  have h2 : Gcc.link "prog" ["a.o"]
      { linkType := LinkType.Executable, language := Language.CPlusPlusLanguage,
        customFlags := ["-O2", "-s"], libraryPath := ["/a", "/b"], libraries := ["m", "z"],
        staticLibraries := [] }
      = Except.ok ⟨"g++", ["a.o", "-o", "prog", "-O2", "-s", "-L\"/a\"", "-L\"/b\"", "-lm", "-lz"]⟩ := by
    decide
  rw [h2] at hjob
  cases hjob
  rfl

/-! ### Escaping, the `Config` record and the install prefix -/

set_option maxRecDepth 100000 in
/-- C12 fails on the code: `saveCache` writes the install prefix (as the
compiler, the source directory and the scope names) without `escape`. The
value `C:\tools` is written with its backslash escaped as a user option and as
it stands as the install prefix, where the interpreter reads `\t` as a tab:
the user option is read back unchanged, the install prefix is not. -/
theorem saveCache_config_not_escaped :
    saveCache backslashCache
      = "UserOption \x7b\n    name = \"tools\",\n    value = \"C:\\\\tools\"\n\x7d\n\n"
        ++ "Config \x7b\n    buildType = \"release\",\n    compiler = \"gcc\",\n"
        ++ "    sourceDir = \"/src/\",\n    installPrefix = \"C:\\tools\",\n\x7d\n\n"
        ++ "Scopes \x7b\n\x7d\n\n"
    ∧ MeiqueCache.loadCache sampleNormalizeDirPath (saveCache backslashCache)
        (MeiqueCache.fresh BuildType.Release)
      = some (Except.ok
          { sampleCache with
            userOptions := [("tools", "C:\\tools")], installPrefix := "C:\tools" })
    ∧ backslashCache.installPrefix = "C:\\tools"
    ∧ ("C:\tools" : String) ≠ "C:\\tools" := by
  decide

/-- C14: `MeiqueCache::installPrefix` returns the normalized value of `DESTDIR`
whenever that value is not empty, whatever the configured prefix; otherwise
the configured install prefix when that is not empty; otherwise the default
install prefix of the system. A `DESTDIR` set to the empty string gives what
an unset `DESTDIR` gives. -/
theorem resolveInstallPrefix_precedence (env : String → Option String)
    (normalizeDirPath : String → String) (defaultInstallPrefix : String)
    (self : MeiqueCache) :
    (∀ destDir, env "DESTDIR" = some destDir → destDir ≠ "" →
        self.resolveInstallPrefix env normalizeDirPath defaultInstallPrefix
          = normalizeDirPath destDir)
      ∧ ((env "DESTDIR" = none ∨ env "DESTDIR" = some "") → self.installPrefix ≠ "" →
          self.resolveInstallPrefix env normalizeDirPath defaultInstallPrefix
            = self.installPrefix)
      ∧ ((env "DESTDIR" = none ∨ env "DESTDIR" = some "") → self.installPrefix = "" →
          self.resolveInstallPrefix env normalizeDirPath defaultInstallPrefix
            = defaultInstallPrefix)
      ∧ (∀ env2 : String → Option String, env "DESTDIR" = some "" → env2 "DESTDIR" = none →
          self.resolveInstallPrefix env normalizeDirPath defaultInstallPrefix
            = self.resolveInstallPrefix env2 normalizeDirPath defaultInstallPrefix) := by
  have hempty : ∀ s : String, s ≠ "" → s.isEmpty = false := by
    intro s hs
    cases hb : s.isEmpty with
    | false => rfl
    | true => exact absurd ((String.isEmpty_iff s).mp hb) hs
  have hunset : (env "DESTDIR" = none ∨ env "DESTDIR" = some "") →
      (OS.getEnv env "DESTDIR").isEmpty = true := by
    intro h
    rcases h with h | h <;> simp [OS.getEnv, h] <;> rfl
  refine ⟨?_, ?_, ?_, ?_⟩
  · intro destDir h hne
    simp [MeiqueCache.resolveInstallPrefix, OS.getEnv, h, hempty destDir hne]
  · intro h hne
    simp [MeiqueCache.resolveInstallPrefix, hunset h, hempty _ hne]
  · intro h he
    have he2 : self.installPrefix.isEmpty = true := (String.isEmpty_iff _).mpr he
    simp [MeiqueCache.resolveInstallPrefix, hunset h, he2]
  · intro env2 h1 h2
    simp [MeiqueCache.resolveInstallPrefix, OS.getEnv, h1, h2]

/-- An instance of C14: with `DESTDIR` set to `/stage`, the prefix is
`/stage/` although `/usr/` is configured. -/
theorem resolveInstallPrefix_precedence_witness :
    MeiqueCache.resolveInstallPrefix
        (fun name => if name = "DESTDIR" then some "/stage" else none)
        sampleNormalizeDirPath "/usr/local/" fullCache
      = "/stage/" :=
  (resolveInstallPrefix_precedence
    (fun name => if name = "DESTDIR" then some "/stage" else none)
    sampleNormalizeDirPath "/usr/local/" fullCache).1 "/stage" (by decide) (by decide)

/-! ### The build state machine -/

theorem execMachine_transitions :
    execMachine.transitions =
      [((State.checkArgs, 2), State.showHelp), ((State.checkArgs, 1), State.showVersion),
       ((State.checkArgs, 3), State.lookForMeiqueCache), ((State.checkArgs, 4), State.dumpProject),
       ((State.lookForMeiqueCache, 5), State.getBuildAction),
       ((State.lookForMeiqueCache, 6), State.lookForMeiqueLua),
       ((State.lookForMeiqueLua, 5), State.configureProject),
       ((State.lookForMeiqueLua, 6), State.showHelp),
       ((State.configureProject, 9), State.getBuildAction),
       ((State.getBuildAction, 10), State.testTargets),
       ((State.getBuildAction, 11), State.installTargets),
       ((State.getBuildAction, 12), State.uninstallTargets),
       ((State.getBuildAction, 13), State.buildTargets),
       ((State.getBuildAction, 14), State.cleanTargets)] := by
  decide

/-- The table built in `exec` is the specified one. -/
theorem execMachine_next (state : State) (label : Int) :
    execMachine.next state label = specifiedTransition state label := by
  have hcases : label = 1 ∨ label = 2 ∨ label = 3 ∨ label = 4 ∨ label = 5 ∨ label = 6
      ∨ label = 9 ∨ label = 10 ∨ label = 11 ∨ label = 12 ∨ label = 13 ∨ label = 14
      ∨ (label ≠ 1 ∧ label ≠ 2 ∧ label ≠ 3 ∧ label ≠ 4 ∧ label ≠ 5 ∧ label ≠ 6 ∧ label ≠ 9
          ∧ label ≠ 10 ∧ label ≠ 11 ∧ label ≠ 12 ∧ label ≠ 13 ∧ label ≠ 14) := by
    omega
  rcases hcases with h | h | h | h | h | h | h | h | h | h | h | h | h
  all_goals try (subst h; cases state <;> decide)
  obtain ⟨h1, h2, h3, h4, h5, h6, h9, h10, h11, h12, h13, h14⟩ := h
  have hnone : execMachine.next state label = none := by
    unfold StateMachine.next
    rw [execMachine_transitions]
    have hf : List.find? (fun e => decide (e.1 = (state, label)))
        [((State.checkArgs, 2), State.showHelp), ((State.checkArgs, 1), State.showVersion),
         ((State.checkArgs, 3), State.lookForMeiqueCache),
         ((State.checkArgs, 4), State.dumpProject),
         ((State.lookForMeiqueCache, 5), State.getBuildAction),
         ((State.lookForMeiqueCache, 6), State.lookForMeiqueLua),
         ((State.lookForMeiqueLua, 5), State.configureProject),
         ((State.lookForMeiqueLua, 6), State.showHelp),
         ((State.configureProject, 9), State.getBuildAction),
         ((State.getBuildAction, 10), State.testTargets),
         ((State.getBuildAction, 11), State.installTargets),
         ((State.getBuildAction, 12), State.uninstallTargets),
         ((State.getBuildAction, 13), State.buildTargets),
         ((State.getBuildAction, 14), State.cleanTargets)] = none := by
      rw [List.find?_eq_none]
      intro x hx
      simp only [List.mem_cons, List.mem_singleton, List.not_mem_nil, or_false] at hx
      rcases hx with hx | hx | hx | hx | hx | hx | hx | hx | hx | hx | hx | hx | hx | hx <;>
        (subst hx; simp only [Prod.mk.injEq, decide_eq_true_eq, not_and]; intro _ h0; omega)
    rw [hf]
  rw [hnone]
  cases state <;>
    simp [specifiedTransition, HasVersionArg, HasHelpArg, NormalArgs, DumpProject, Found,
      NotFound, Ok, TestAction, InstallAction, UninstallAction, BuildAction, CleanAction, h1,
      h2, h3, h4, h5, h6, h9, h10, h11, h12, h13, h14]

theorem specifiedTransition_rank (state successor : State) (label : Int)
    (h : specifiedTransition state label = some successor) : successor.rank < state.rank := by
  cases state <;> simp only [specifiedTransition] at h <;>
    (try split_ifs at h) <;>
    first
      | (simp only [Option.some.injEq] at h; subst h; decide)
      | simp at h

theorem StateMachine.execute_more_fuel {W : Type} (machine : StateMachine)
    (run : State → W → Int × W) (fuel : Nat) :
    ∀ (state : State) (w : W) (r : List State × W),
      machine.execute run fuel state w = some r →
        machine.execute run (fuel + 1) state w = some r := by
  induction fuel with
  | zero => intro state w r h; simp [StateMachine.execute] at h
  | succ fuel ih =>
    intro state w r h
    rw [StateMachine.execute] at h ⊢
    cases hn : machine.next state (run state w).1 with
    | none => rw [hn] at h; simpa using h
    | some successor =>
      rw [hn] at h
      simp only at h ⊢
      cases he : machine.execute run fuel successor (run state w).2 with
      | none => rw [he] at h; simp at h
      | some r1 =>
        rw [he] at h
        rw [ih successor _ r1 he]
        exact h

theorem StateMachine.execute_fuel_le {W : Type} (machine : StateMachine)
    (run : State → W → Int × W) (fuel fuel2 : Nat) (hle : fuel ≤ fuel2) (state : State) (w : W)
    (r : List State × W) (h : machine.execute run fuel state w = some r) :
    machine.execute run fuel2 state w = some r := by
  induction fuel2 with
  | zero =>
    have h0 : fuel = 0 := Nat.le_zero.mp hle
    subst h0
    exact h
  | succ k ih =>
    rcases Nat.lt_or_ge k fuel with hlt | hge
    · have heq : fuel = k + 1 := by omega
      subst heq
      exact h
    · exact StateMachine.execute_more_fuel machine run k state w r (ih hge)

/-- From a state of rank below the fuel, the machine of `exec` stops, having run
states of strictly decreasing rank. -/
theorem execMachine_execute_stops {W : Type} (run : State → W → Int × W) (fuel : Nat) :
    ∀ (state : State) (w : W), state.rank < fuel →
      ∃ trace w1, execMachine.execute run fuel state w = some (trace, w1)
        ∧ trace.length ≤ state.rank + 1
        ∧ trace.head? = some state
        ∧ (∀ x ∈ trace, x.rank ≤ state.rank)
        ∧ trace.Pairwise (fun a b => b.rank < a.rank) := by
  induction fuel with
  | zero => intro state w h; omega
  | succ fuel ih =>
    intro state w h
    rw [StateMachine.execute]
    cases hn : execMachine.next state (run state w).1 with
    | none =>
      exact ⟨[state], (run state w).2, rfl, by simp, rfl, by simp, by simp⟩
    | some successor =>
      have hrank : successor.rank < state.rank := by
        rw [execMachine_next] at hn
        exact specifiedTransition_rank state successor _ hn
      obtain ⟨trace, w1, he, hlen, _, hall, hpair⟩ := ih successor (run state w).2 (by omega)
      refine ⟨state :: trace, w1, by simp [he], by simp; omega, rfl, ?_, ?_⟩
      · intro x hx
        rcases List.mem_cons.mp hx with hx | hx
        · rw [hx]
        · exact Nat.le_of_lt (Nat.lt_of_le_of_lt (hall x hx) hrank)
      · exact List.Pairwise.cons
          (fun x hx => Nat.lt_of_le_of_lt (hall x hx) hrank) hpair

/-- C17: whatever labels the state functions return, a run of the machine of
`Meique::exec` from `checkArgs` stops after at most six states, none of them
run twice; six steps of fuel, or more, give that run. -/
theorem exec_halts_within_six_states {W : Type} (run : State → W → Int × W) (w : W) :
    ∃ trace w1, (∀ fuel, 6 ≤ fuel → exec run fuel w = some (trace, w1))
      ∧ trace.length ≤ 6
      ∧ trace.Nodup
      ∧ trace.head? = some State.checkArgs := by
  obtain ⟨trace, w1, he, hlen, hhead, _, hpair⟩ :=
    execMachine_execute_stops run 6 State.checkArgs w (by decide)
  refine ⟨trace, w1, ?_, hlen, ?_, hhead⟩
  · intro fuel hfuel
    exact StateMachine.execute_fuel_le execMachine run 6 fuel hfuel _ _ _ he
  · exact List.Pairwise.imp (fun {a b} (h : b.rank < a.rank) (hab : a = b) => by
      rw [hab] at h; exact Nat.lt_irrefl _ h) hpair

/-! ### Auto-save -/

/-- C16: a cache has auto-save enabled from construction; when the script
evaluation inside `Meique::configureProject` raises, the cache of the script
has auto-save disabled and the error goes on; with auto-save disabled neither
the destructor nor `handleCtrlC` touches the cache file, and with auto-save
enabled both write what `saveCache` writes. -/
theorem autoSave_policy :
    (∀ buildType : BuildType, (MeiqueCache.fresh buildType).autoSave = true)
      ∧ (∀ (script : MeiqueCache → ScriptRun) (stopAfterConfigure : Bool)
          (cache : MeiqueCache) (e : String),
          (script cache).error = some e →
            (configureProject script stopAfterConfigure cache).1.autoSave = false
              ∧ (configureProject script stopAfterConfigure cache).2 = Except.error e)
      ∧ (∀ (cache : MeiqueCache) (file : Option String), cache.autoSave = false →
          cache.destructor file = file ∧ handleCtrlC (some cache) file = file)
      ∧ (∀ (cache : MeiqueCache) (file : Option String), cache.autoSave = true →
          cache.destructor file = some (saveCache cache)
            ∧ handleCtrlC (some cache) file = some (saveCache cache)) := by
  refine ⟨fun _ => rfl, ?_, ?_, ?_⟩
  · intro script stop cache e h
    simp [configureProject, h, MeiqueCache.setAutoSave]
  · intro cache file h
    simp [MeiqueCache.destructor, handleCtrlC, MeiqueCache.isAutoSaveEnabled, h]
  · intro cache file h
    simp [MeiqueCache.destructor, handleCtrlC, MeiqueCache.isAutoSaveEnabled, h]

/-- An instance of C16: a script that raises on a fresh cache leaves it with
auto-save disabled, and neither the destructor nor the interrupt handler
creates the cache file. -/
theorem autoSave_policy_witness :
    (configureProject failingScript false (MeiqueCache.fresh BuildType.Release)).1.autoSave = false
      ∧ (configureProject failingScript false (MeiqueCache.fresh BuildType.Release)).2
        = Except.error "meique.lua:3: syntax error"
      ∧ (configureProject failingScript false
          (MeiqueCache.fresh BuildType.Release)).1.destructor none = none
      ∧ handleCtrlC
          (some (configureProject failingScript false (MeiqueCache.fresh BuildType.Release)).1)
          none = none :=
  ⟨(autoSave_policy.2.1 failingScript false (MeiqueCache.fresh BuildType.Release) _ rfl).1,
    (autoSave_policy.2.1 failingScript false (MeiqueCache.fresh BuildType.Release) _ rfl).2,
    (autoSave_policy.2.2.1 _ none
      (autoSave_policy.2.1 failingScript false (MeiqueCache.fresh BuildType.Release) _ rfl).1).1,
    (autoSave_policy.2.2.1 _ none
      (autoSave_policy.2.1 failingScript false (MeiqueCache.fresh BuildType.Release) _ rfl).1).2⟩

/-! ### The link step of a compilable target -/

end Meique
